import Mathlib

/-!
# Verification of the md-lsp analysis core

A shallow embedding of the Markdown language-server analysis engine
(`src/ast.rs`, `src/links.rs`, `src/definition.rs`, `src/references.rs`,
`src/rename.rs`, `src/diagnostics.rs`, `src/state.rs`) together with proofs
about the embedded definitions.

Modelling conventions:
* Rust `usize` arithmetic is modelled with `Nat`; the spans produced by the
  Markdown parser are 1-indexed, so the `- 1` conversions never underflow on
  parser-produced input.
* A Rust function that can panic (an `unwrap` on a value that may be absent)
  is modelled as returning `Option`, where `none` marks the panic; a function
  that both can panic and returns `Option` in Rust is modelled as
  `Option (Option _)`, with the outer `none` marking the panic and
  `some none` the ordinary "no result" outcome.
* Byte offsets inside a line (from the `regex` crate) are modelled as
  character offsets; the two coincide on ASCII input.
-/

namespace MdLsp

/-- `markdown::unist::Point`: a 1-indexed line/column source position. -/
structure Point where
  line : Nat
  column : Nat
  offset : Nat
  deriving DecidableEq, Repr

/-- `markdown::unist::Position`: a source span (start/end points). -/
structure Span where
  start : Point
  endPos : Point
  deriving DecidableEq, Repr

/-- `markdown::mdast::Node`, restricted to the variants the analysis core
inspects; every other variant (paragraph, list, …) only carries children and
is modelled by `container`. -/
inductive Node where
  | heading (depth : Nat) (children : List Node) (position : Option Span)
  | text (value : String) (position : Option Span)
  | link (url : String) (title : Option String) (children : List Node) (position : Option Span)
  | linkReference (identifier : String) (children : List Node) (position : Option Span)
  | definition (identifier : String) (url : String) (title : Option String) (position : Option Span)
  | footnoteReference (identifier : String) (position : Option Span)
  | footnoteDefinition (identifier : String) (children : List Node) (position : Option Span)
  | html (value : String) (position : Option Span)
  | container (children : List Node) (position : Option Span)
  deriving Repr

namespace Node

/-- `Node::children` from the `markdown` crate: the variants that own
children return them, the leaf variants return `None`. -/
def childrenOpt : Node → Option (List Node)
  | .heading _ cs _ => some cs
  | .link _ _ cs _ => some cs
  | .linkReference _ cs _ => some cs
  | .footnoteDefinition _ cs _ => some cs
  | .container cs _ => some cs
  | _ => none

/-- `Node::position`. -/
def position : Node → Option Span
  | .heading _ _ p => p
  | .text _ p => p
  | .link _ _ _ p => p
  | .linkReference _ _ p => p
  | .definition _ _ _ p => p
  | .footnoteReference _ p => p
  | .footnoteDefinition _ _ p => p
  | .html _ p => p
  | .container _ p => p

end Node

mutual
/-- Pre-order depth-first traversal (`AstIterator` in `src/ast.rs`): the node
itself first, then its children left to right. -/
def preorder : Node → List Node
  | .heading d cs p => .heading d cs p :: preorderList cs
  | .text v p => [.text v p]
  | .link u t cs p => .link u t cs p :: preorderList cs
  | .linkReference i cs p => .linkReference i cs p :: preorderList cs
  | .definition i u t p => [.definition i u t p]
  | .footnoteReference i p => [.footnoteReference i p]
  | .footnoteDefinition i cs p => .footnoteDefinition i cs p :: preorderList cs
  | .html v p => [.html v p]
  | .container cs p => .container cs p :: preorderList cs

/-- Pre-order traversal of a list of sibling nodes. -/
def preorderList : List Node → List Node
  | [] => []
  | c :: cs => preorder c ++ preorderList cs
end

/-! ## String helpers (modelling the Rust std string operations used) -/

/-- Rust `str::split_once(c)`: split at the first occurrence of `c`,
returning the text before and after it, or `None` when `c` is absent. -/
def splitOnceCharList (c : Char) : List Char → Option (List Char × List Char)
  | [] => none
  | x :: rest =>
    if x = c then some ([], rest)
    else (splitOnceCharList c rest).map (fun p => (x :: p.1, p.2))

/-- Rust `str::split_once(c)` on `String`s. -/
def splitOnceChar (c : Char) (s : String) : Option (String × String) :=
  (splitOnceCharList c s.data).map (fun p => (⟨p.1⟩, ⟨p.2⟩))

/-- Rust `str.replace('#', "")`: remove every occurrence of a character. -/
def removeChar (c : Char) (s : String) : String :=
  ⟨s.data.filter (fun x => x ≠ c)⟩

/-- Rust `str.to_lowercase().replace(' ', "-")`: the slug transform used by
heading matching (lowercasing is modelled per character). -/
def slugify (s : String) : String :=
  ⟨s.data.map (fun c => let c := c.toLower; if c = ' ' then '-' else c)⟩

/-- Substring containment, Rust `str::contains(&str)`. -/
def hasSubstrList (pat : List Char) : List Char → Bool
  | [] => pat.isEmpty
  | x :: rest => pat.isPrefixOf (x :: rest) || hasSubstrList pat rest

/-- Substring containment on `String`s. -/
def hasSubstr (s pat : String) : Bool :=
  hasSubstrList pat.data s.data

/-- Rust `str::starts_with(&str)` (list-based so that terms reduce). -/
def strStartsWith (s pat : String) : Bool :=
  pat.data.isPrefixOf s.data

/-- Rust `str::ends_with(&str)`. -/
def strEndsWith (s pat : String) : Bool :=
  pat.data.isSuffixOf s.data

/-- Rust `str::contains(char)`. -/
def strContainsChar (s : String) (c : Char) : Bool :=
  s.data.contains c

/-- Split a character list at every occurrence of `c` (the pieces do not
contain `c`; `n` separators yield `n + 1` pieces). -/
def splitOnCharList (c : Char) : List Char → List (List Char)
  | [] => [[]]
  | x :: rest =>
    if x = c then [] :: splitOnCharList c rest
    else
      match splitOnCharList c rest with
      | h :: t => (x :: h) :: t
      | [] => [[x]]

/-- Whether a character is a hexadecimal digit. -/
def isHexDigitChar (c : Char) : Bool :=
  c.isDigit || ('a' ≤ c && c ≤ 'f') || ('A' ≤ c && c ≤ 'F')

/-- Value of a hexadecimal digit character. -/
def hexVal (c : Char) : Nat :=
  if c.isDigit then c.toNat - 48
  else if 'a' ≤ c ∧ c ≤ 'f' then c.toNat - 87
  else if 'A' ≤ c ∧ c ≤ 'F' then c.toNat - 55
  else 0

/-- The fragment percent-decoding of `percent_encoding::percent_decode`
(`url_decode` in `src/links.rs`), modelled for ASCII text: a `%` followed by
two hex digits decodes to the character with that code. -/
def percentDecodeList : List Char → List Char
  | '%' :: h₁ :: h₂ :: rest =>
    if isHexDigitChar h₁ && isHexDigitChar h₂ then
      Char.ofNat (16 * hexVal h₁ + hexVal h₂) :: percentDecodeList rest
    else '%' :: percentDecodeList (h₁ :: h₂ :: rest)
  | x :: rest => x :: percentDecodeList rest
  | [] => []

/-- `url_decode` from `src/links.rs`. -/
def urlDecode (s : String) : String :=
  ⟨percentDecodeList s.data⟩

mutual
/-- Structural equality on nodes (the derived `PartialEq` used by
`req_heading == heading` in `src/references.rs`). -/
def nodeBeq : Node → Node → Bool
  | .heading d₁ cs₁ p₁, .heading d₂ cs₂ p₂ => d₁ = d₂ && nodeListBeq cs₁ cs₂ && p₁ = p₂
  | .text v₁ p₁, .text v₂ p₂ => v₁ = v₂ && p₁ = p₂
  | .link u₁ t₁ cs₁ p₁, .link u₂ t₂ cs₂ p₂ =>
    u₁ = u₂ && t₁ = t₂ && nodeListBeq cs₁ cs₂ && p₁ = p₂
  | .linkReference i₁ cs₁ p₁, .linkReference i₂ cs₂ p₂ =>
    i₁ = i₂ && nodeListBeq cs₁ cs₂ && p₁ = p₂
  | .definition i₁ u₁ t₁ p₁, .definition i₂ u₂ t₂ p₂ => i₁ = i₂ && u₁ = u₂ && t₁ = t₂ && p₁ = p₂
  | .footnoteReference i₁ p₁, .footnoteReference i₂ p₂ => i₁ = i₂ && p₁ = p₂
  | .footnoteDefinition i₁ cs₁ p₁, .footnoteDefinition i₂ cs₂ p₂ =>
    i₁ = i₂ && nodeListBeq cs₁ cs₂ && p₁ = p₂
  | .html v₁ p₁, .html v₂ p₂ => v₁ = v₂ && p₁ = p₂
  | .container cs₁ p₁, .container cs₂ p₂ => nodeListBeq cs₁ cs₂ && p₁ = p₂
  | _, _ => false

/-- Structural equality on node lists. -/
def nodeListBeq : List Node → List Node → Bool
  | [], [] => true
  | c₁ :: cs₁, c₂ :: cs₂ => nodeBeq c₁ c₂ && nodeListBeq cs₁ cs₂
  | _, _ => false
end

/-! ## Position-containment predicates (`src/ast.rs`) -/

/-- The containment check of `find_linkable_for_position`
(`src/ast.rs`, lines 64–68): the 0-indexed query position is converted to
1-indexed and compared against the span, with both a lower and an upper
column bound. -/
def linkableContainsSpan (pos : Span) (line character : Nat) : Bool :=
  pos.start.line ≤ line + 1 && line + 1 ≤ pos.endPos.line &&
    pos.start.column ≤ character + 1 && character + 1 ≤ pos.endPos.column

/-- The containment check of `find_definition_for_position`
(`src/ast.rs`, lines 81–85): same as the linkable check except that the
upper column bound is commented out in the source. -/
def definitionContainsSpan (pos : Span) (line character : Nat) : Bool :=
  pos.start.line ≤ line + 1 && line + 1 ≤ pos.endPos.line &&
    pos.start.column ≤ character + 1

/-- Whether a node is of a linkable variant whose span contains the given
position (`find_linkable_for_position`, `src/ast.rs` lines 58–75). -/
def isLinkableAt (line character : Nat) : Node → Bool
  | .heading _ _ (some pos) => linkableContainsSpan pos line character
  | .link _ _ _ (some pos) => linkableContainsSpan pos line character
  | .linkReference _ _ (some pos) => linkableContainsSpan pos line character
  | .footnoteReference _ (some pos) => linkableContainsSpan pos line character
  | _ => false

/-- `find_linkable_for_position` from `src/ast.rs`. -/
def findLinkableForPosition (root : Node) (line character : Nat) : Option Node :=
  (preorder root).find? (isLinkableAt line character)

/-- Whether a node is of a definition-target variant whose span contains the
given position (`find_definition_for_position`, `src/ast.rs` lines 76–92). -/
def isDefinitionTargetAt (line character : Nat) : Node → Bool
  | .heading _ _ (some pos) => definitionContainsSpan pos line character
  | .definition _ _ _ (some pos) => definitionContainsSpan pos line character
  | .footnoteDefinition _ _ (some pos) => definitionContainsSpan pos line character
  | _ => false

/-- `find_definition_for_position` from `src/ast.rs`. -/
def findDefinitionForPosition (root : Node) (line character : Nat) : Option Node :=
  (preorder root).find? (isDefinitionTargetAt line character)

/-! ## Heading and identifier lookup (`src/ast.rs`) -/

/-- The heading-matching rule shared by `find_heading_for_link` and
`find_heading_for_link_identifier` (`src/ast.rs` lines 94–132): given the
target with `#` removed, a heading matches when its first child is a `Text`
whose value equals the target exactly, or whose slug equals the slug of the
target. -/
def headingMatches (target : String) (n : Node) : Option Node :=
  match n with
  | .heading d cs p =>
    match cs.head? with
    | some (.text v _) =>
      if v = target ∨ slugify v = slugify target then some (.heading d cs p) else none
    | _ => none
  | _ => none

/-- `find_heading_for_link` from `src/ast.rs` (the link is consulted only for
its `url`, which is passed here directly). -/
def findHeadingForLink (linkUrl : String) (root : Node) : Option Node :=
  (preorder root).findSome? (headingMatches (removeChar '#' linkUrl))

/-- `find_heading_for_link_identifier` from `src/ast.rs`. -/
def findHeadingForLinkIdentifier (root : Node) (linkIdentifier : String) : Option Node :=
  (preorder root).findSome? (headingMatches (removeChar '#' linkIdentifier))

/-- `find_definition_for_identifier` from `src/ast.rs`: the first `Definition`
node with the given identifier, in pre-order. -/
def findDefinitionForIdentifier (root : Node) (identifier : String) : Option Node :=
  (preorder root).find? (fun n => match n with
    | .definition i _ _ _ => i = identifier
    | _ => false)

/-- `find_foot_definition_for_identifier` from `src/ast.rs`. -/
def findFootDefinitionForIdentifier (root : Node) (identifier : String) : Option Node :=
  (preorder root).find? (fun n => match n with
    | .footnoteDefinition i _ _ => i = identifier
    | _ => false)

mutual
/-- `find_link_references_for_identifier` from `src/ast.rs`: a `LinkReference`
with the given identifier is collected and, as in the source, its own
children are not descended into; every other node's children are searched. -/
def findLinkReferencesForIdentifier (root : Node) (identifier : String) : List Node :=
  match root with
  | .linkReference i cs p => if i = identifier then [.linkReference i cs p] else []
  | .heading _ cs _ => findLinkReferencesForIdentifierList cs identifier
  | .link _ _ cs _ => findLinkReferencesForIdentifierList cs identifier
  | .footnoteDefinition _ cs _ => findLinkReferencesForIdentifierList cs identifier
  | .container cs _ => findLinkReferencesForIdentifierList cs identifier
  | _ => []

/-- `find_link_references_for_identifier` over a list of siblings. -/
def findLinkReferencesForIdentifierList (cs : List Node) (identifier : String) : List Node :=
  match cs with
  | [] => []
  | c :: rest =>
    findLinkReferencesForIdentifier c identifier ++
      findLinkReferencesForIdentifierList rest identifier
end

mutual
/-- `find_footnote_references_for_identifier` from `src/ast.rs`. -/
def findFootnoteReferencesForIdentifier (root : Node) (identifier : String) : List Node :=
  match root with
  | .footnoteReference i p => if i = identifier then [.footnoteReference i p] else []
  | .heading _ cs _ => findFootnoteReferencesForIdentifierList cs identifier
  | .link _ _ cs _ => findFootnoteReferencesForIdentifierList cs identifier
  | .linkReference _ cs _ => findFootnoteReferencesForIdentifierList cs identifier
  | .footnoteDefinition _ cs _ => findFootnoteReferencesForIdentifierList cs identifier
  | .container cs _ => findFootnoteReferencesForIdentifierList cs identifier
  | _ => []

/-- `find_footnote_references_for_identifier` over a list of siblings. -/
def findFootnoteReferencesForIdentifierList (cs : List Node) (identifier : String) : List Node :=
  match cs with
  | [] => []
  | c :: rest =>
    findFootnoteReferencesForIdentifier c identifier ++
      findFootnoteReferencesForIdentifierList rest identifier
end

mutual
/-- `find_links` from `src/ast.rs`, projected to the link data the resolver
consumes (`url`, `title`, `position`); a matched `Link` is collected without
descending into its children, as in the source. -/
def findLinks (root : Node) : List (String × Option String × Option Span) :=
  match root with
  | .link u t _ p => [(u, t, p)]
  | .heading _ cs _ => findLinksList cs
  | .linkReference _ cs _ => findLinksList cs
  | .footnoteDefinition _ cs _ => findLinksList cs
  | .container cs _ => findLinksList cs
  | _ => []

/-- `find_links` over a list of siblings. -/
def findLinksList (cs : List Node) : List (String × Option String × Option Span) :=
  match cs with
  | [] => []
  | c :: rest => findLinks c ++ findLinksList rest
end

/-- `get_heading_text` from `src/ast.rs`: the value of the first `Text` child
of a heading. -/
def getHeadingText (n : Node) : Option String :=
  match n with
  | .heading _ cs _ =>
    cs.findSome? (fun c => match c with
      | .text v _ => some v
      | _ => none)
  | _ => none

/-! ## Document store (`src/state.rs`) -/

/-- Document identifiers (`lsp_types::Url`); the URL-to-file-path conversion
of the external `url` crate is modelled as the identity on path strings. -/
abbrev Url := String

/-- `MdFile` from `src/state.rs`. -/
structure MdFile where
  buffer : String
  ast : Node

/-- `WorkspaceFolder` (only its `uri` path and `name` are consulted). -/
structure WorkspaceFolder where
  uri : String
  name : String

/-- `State` from `src/state.rs`: the document store. The `HashMap` is
modelled as an association list with unique keys; iteration order is the
list order. -/
structure State where
  mdFiles : List (Url × MdFile)
  workspaceFolder : Option WorkspaceFolder

/-- `path_from_root` from `src/state.rs`: `Path::strip_prefix` is modelled
component-wise via the `/` separator for a root with no trailing slash. -/
def pathFromRoot (fromPath toPath : String) : Option String :=
  if strStartsWith toPath (fromPath ++ "/") then
    some ("/" ++ ⟨toPath.data.drop (fromPath.length + 1)⟩)
  else none

/-- `State::ast_for_uri`. -/
def State.astForUri (s : State) (uri : Url) : Option Node :=
  (s.mdFiles.find? (fun p => p.1 = uri)).map (fun p => p.2.ast)

/-- `State::buffer_for_uri`. -/
def State.bufferForUri (s : State) (uri : Url) : Option String :=
  (s.mdFiles.find? (fun p => p.1 = uri)).map (fun p => p.2.buffer)

/-- `State::get_file_list`: every stored document paired with its
workspace-relative path. -/
def State.getFileList (s : State) : List (Url × String) :=
  s.mdFiles.filterMap (fun p =>
    s.workspaceFolder.bind (fun wsf =>
      (pathFromRoot wsf.uri p.1).map (fun rel => (p.1, rel))))

/-! ## Link resolution (`src/links.rs`) -/

/-- The data of a `markdown::mdast::Link` that `resolve_link` and the rename
machinery consume: `url`, `title` and `position` (children are unused). -/
structure MdLinkData where
  url : String
  title : Option String
  position : Option Span
  deriving Repr

/-- `MdLink::new` from `src/links.rs`, projected to the wiki-link test: a
link is a wiki-link exactly when its title is `Some("wikilink")`. -/
def mdLinkIsWiki (title : Option String) : Bool :=
  match title with
  | some t => t = "wikilink"
  | none => false

/-- `ResolvedLink` from `src/links.rs`; the `File`, `InternalHeading` and
`ExternalHeading` variants carry the originating link (as `MdLink` does). -/
inductive ResolvedLink where
  | file (link : MdLinkData) (fileUri : Url)
  | internalHeading (link : MdLinkData) (fileUri : Url) (heading : Node)
  | externalHeading (link : MdLinkData) (fileUri : Url) (heading : Node)
  | http
  | unresolved

/-- `ResolvedLink::link_position` from `src/links.rs`. -/
def ResolvedLink.linkPosition : ResolvedLink → Option Span
  | .file l _ => l.position
  | .internalHeading l _ _ => l.position
  | .externalHeading l _ _ => l.position
  | _ => none

/-- The shape of a resolution result with the originating link erased; used
to state that resolution depends on a link only through its url and its
wiki-link classification. -/
inductive ResolvedShape where
  | file (fileUri : Url)
  | internalHeading (fileUri : Url) (heading : Node)
  | externalHeading (fileUri : Url) (heading : Node)
  | http
  | unresolved

/-- Erase the originating link from a resolution result. -/
def ResolvedLink.shape : ResolvedLink → ResolvedShape
  | .file _ u => .file u
  | .internalHeading _ u h => .internalHeading u h
  | .externalHeading _ u h => .externalHeading u h
  | .http => .http
  | .unresolved => .unresolved

/-- The file-list loop of `resolve_link`'s no-`#` branch: the first stored
document whose workspace-relative path equals `file` resolves to `File`,
otherwise `Unresolved`. -/
def resolveFileSearch (link : MdLinkData) (s : State) (file : String) : Option ResolvedLink :=
  match s.getFileList.find? (fun p => p.2 = file) with
  | some (url, _) => some (.file link url)
  | none => some .unresolved

/-- The file-list loop of `resolve_link`'s file-plus-heading branch: on the
first document whose workspace-relative path equals `file`, search its tree
for the fragment (`ExternalHeading` on a hit, `File` otherwise); with no
matching document, `Unresolved`.  The source unwraps
`state.ast_for_uri(url)` for a url obtained from `get_file_list`; the
`none` outcome models that panic, and `resolveFileHeadingSearch_total`
proves it unreachable. -/
def resolveFileHeadingSearch (link : MdLinkData) (s : State) (file frag : String) :
    Option ResolvedLink :=
  match s.getFileList.find? (fun p => p.2 = file) with
  | some (url, _) =>
    match s.astForUri url with
    | none => none
    | some ast =>
      match findHeadingForLinkIdentifier ast frag with
      | some h => some (.externalHeading link url h)
      | none => some (.file link url)
  | none => some .unresolved

/-- `resolve_link` from `src/links.rs`. -/
def resolveLink (link : MdLinkData) (s : State) : Option ResolvedLink :=
  let isWiki := mdLinkIsWiki link.title
  if strStartsWith link.url "http" then some .http
  else
    match splitOnceChar '#' link.url with
    | some (fileRefText, headingRefText) =>
      if fileRefText = "" then
        match s.mdFiles.findSome? (fun p =>
            (findHeadingForLink link.url p.2.ast).map (fun h => (p.1, h))) with
        | some (url, h) => some (.internalHeading link url h)
        | none => some .unresolved
      else
        resolveFileHeadingSearch link s
          (if isWiki then
            (if strEndsWith fileRefText ".md" then fileRefText else fileRefText ++ ".md")
           else urlDecode fileRefText)
          headingRefText
    | none =>
      resolveFileSearch link s
        (if strEndsWith link.url ".md" then link.url else link.url ++ ".md")

/-! ## Wiki-link extraction (`src/links.rs`) -/

/-- Index of the first occurrence of the two-character pattern `a b` in a
character list. -/
def find2 (a b : Char) : List Char → Option Nat
  | x :: y :: rest =>
    if x = a ∧ y = b then some 0 else (find2 a b (y :: rest)).map (fun i => i + 1)
  | _ => none

/-- The recursion of `wikiMatches`, with fuel: every match consumes at least
four characters, so fuel equal to the line length never runs out. -/
def wikiMatchesAux : Nat → List Char → Nat → List (String × Nat)
  | 0, _, _ => []
  | fuel + 1, l, idx =>
    match find2 '[' '[' l with
    | none => []
    | some i =>
      match find2 ']' ']' (l.drop (i + 2)) with
      | none => []
      | some j =>
        ((⟨(l.drop (i + 2)).take j⟩ : String), idx + i + 2) ::
          wikiMatchesAux fuel ((l.drop (i + 2)).drop (j + 2)) (idx + i + 2 + j + 2)

/-- The per-line matches of the regular expression `\[\[([\s\S]*?)\]\]`
(`extract_wiki_links` in `src/links.rs`): the lazy inner group makes each
match run from the first `[[` to the next `]]`; scanning continues after the
match.  Each result is the bracket content together with its start index in
the line. -/
def wikiMatches (l : List Char) (idx : Nat) : List (String × Nat) :=
  wikiMatchesAux (l.length + 1) l idx

/-- Rust `str::lines`: split on newlines, dropping a trailing empty line and
stripping a carriage return at the end of each line. -/
def rustLines (s : String) : List String :=
  let parts := (splitOnCharList '\n' s.data).map (fun l => (⟨l⟩ : String))
  let parts :=
    match parts.reverse with
    | "" :: rest => rest.reverse
    | _ => parts
  parts.map (fun l => if strEndsWith l "\r" then (⟨l.data.dropLast⟩ : String) else l)

/-- `ExtractedWikiLink` from `src/links.rs`. -/
structure ExtractedWikiLink where
  content : String
  startPosition : Nat
  lineNumber : Nat
  deriving Repr

/-- `extract_wiki_links` from `src/links.rs`: per line, each `[[content]]`
occurrence, recording `content`, its line-local start offset plus one, and
the line number. -/
def extractWikiLinks (input : String) : List ExtractedWikiLink :=
  (rustLines input).enum.flatMap (fun p =>
    (wikiMatches p.2.data 0).map (fun m =>
      { content := m.1, startPosition := m.2 + 1, lineNumber := p.1 }))

/-- `ExtractedWikiLink::link_text_node` from `src/links.rs`. -/
def ExtractedWikiLink.linkTextNode (e : ExtractedWikiLink) (startLine : Nat) : Node :=
  let value := ""
  let valueLen := value.length
  Node.text value
    (some ⟨⟨startLine + e.lineNumber, e.startPosition, e.startPosition⟩,
      ⟨startLine + e.lineNumber, e.startPosition + valueLen, e.startPosition + valueLen⟩⟩)

/-- `ExtractedWikiLink::link_node` from `src/links.rs`: the synthesized Link
node, spanning from two columns before the content (the `[[`) to two columns
after it (the `]]`), titled `"wikilink"`. -/
def ExtractedWikiLink.linkNode (e : ExtractedWikiLink) (startLine : Nat) : Node :=
  Node.link e.content (some "wikilink") [e.linkTextNode startLine]
    (some ⟨⟨startLine + e.lineNumber, e.startPosition - 2, e.startPosition - 2⟩,
      ⟨startLine + e.lineNumber, e.startPosition + e.content.length + 2,
        e.startPosition + e.content.length + 2⟩⟩)

/-- Replace a node's children (identity on the variants without children). -/
def Node.withChildren : Node → List Node → Node
  | .heading d _ p, cs => .heading d cs p
  | .link u t _ p, cs => .link u t cs p
  | .linkReference i _ p, cs => .linkReference i cs p
  | .footnoteDefinition i _ p, cs => .footnoteDefinition i cs p
  | .container _ p, cs => .container cs p
  | n, _ => n

/-- The collection loop of `parse_wiki_links`: over the direct children, a
`Text` child containing both `[[` and `]]` contributes the synthesized link
nodes of its extracted wiki links; the `unwrap` on the text position is
modelled by `none`. -/
def collectWikiLinkNodes : List Node → Option (List Node)
  | [] => some []
  | c :: rest => do
    let here ←
      match c with
      | .text v p =>
        if hasSubstr v "[[" && hasSubstr v "]]" then
          match p with
          | some pos => some ((extractWikiLinks v).map (fun e => e.linkNode pos.start.line))
          | none => none
        else some []
      | _ => some []
    let there ← collectWikiLinkNodes rest
    pure (here ++ there)

mutual
/-- `parse_wiki_links` from `src/links.rs`: append the links synthesized from
the direct `Text` children to the node's children, then recurse.  The source
recurses over the list with the synthesized links already appended; on a
synthesized link (whose single `Text` child is empty) the recursion is the
identity, so the appended links are carried over unchanged here and the
recursion processes the original children. -/
def parseWikiLinks (n : Node) : Option Node :=
  match n with
  | .heading d cs p => do
    let links ← collectWikiLinkNodes cs
    let processed ← parseWikiLinksList cs
    pure (.heading d (processed ++ links) p)
  | .link u t cs p => do
    let links ← collectWikiLinkNodes cs
    let processed ← parseWikiLinksList cs
    pure (.link u t (processed ++ links) p)
  | .linkReference i cs p => do
    let links ← collectWikiLinkNodes cs
    let processed ← parseWikiLinksList cs
    pure (.linkReference i (processed ++ links) p)
  | .footnoteDefinition i cs p => do
    let links ← collectWikiLinkNodes cs
    let processed ← parseWikiLinksList cs
    pure (.footnoteDefinition i (processed ++ links) p)
  | .container cs p => do
    let links ← collectWikiLinkNodes cs
    let processed ← parseWikiLinksList cs
    pure (.container (processed ++ links) p)
  | n => some n

/-- `parse_wiki_links` applied to each node of a list. -/
def parseWikiLinksList : List Node → Option (List Node)
  | [] => some []
  | c :: rest => do
    let c₂ ← parseWikiLinks c
    let rest₂ ← parseWikiLinksList rest
    pure (c₂ :: rest₂)
end

/-! ## Protocol types (`lsp_types`) and conversions (`src/definition.rs`) -/

/-- `lsp_types::Position`: a 0-indexed line/character position. -/
structure LspPos where
  line : Nat
  character : Nat
  deriving DecidableEq, Repr

/-- `lsp_types::Range`. -/
structure Range where
  start : LspPos
  endPos : LspPos
  deriving DecidableEq, Repr

/-- `lsp_types::Location`. -/
structure Location where
  uri : Url
  range : Range
  deriving DecidableEq, Repr

/-- `lsp_types::TextEdit`. -/
structure TextEdit where
  range : Range
  newText : String
  deriving DecidableEq, Repr

/-- `range_from_position` from `src/definition.rs`: convert a 1-indexed AST
span to a 0-indexed protocol range. -/
def rangeFromPosition (position : Span) : Range :=
  { start := ⟨position.start.line - 1, position.start.column - 1⟩,
    endPos := ⟨position.endPos.line - 1, position.endPos.column - 1⟩ }

/-- `range_zero` from `src/definition.rs`. -/
def rangeZero : Range :=
  ⟨⟨0, 0⟩, ⟨0, 0⟩⟩

/-! ## Goto-definition (`src/definition.rs`) -/

/-- `def_handle_link_to_heading` from `src/definition.rs`; outer `none` is a
panic inherited from `resolve_link`, `some none` is "no result". -/
def defHandleLinkToHeading (link : MdLinkData) (s : State) : Option (Option Location) :=
  match resolveLink link s with
  | none => none
  | some r =>
    match r with
    | .file _ uri => some (some ⟨uri, rangeZero⟩)
    | .internalHeading _ uri h =>
      some (h.position.map (fun pos => ⟨uri, rangeFromPosition pos⟩))
    | .externalHeading _ uri h =>
      some (h.position.map (fun pos => ⟨uri, rangeFromPosition pos⟩))
    | _ => some none

/-- `handle_link_ref` from `src/definition.rs`; the `unwrap` on the request
document's tree is modelled by the outer `none`. -/
def handleLinkRef (reqUri : Url) (identifier : String) (s : State) : Option (Option Location) :=
  match s.astForUri reqUri with
  | none => none
  | some reqAst =>
    some ((findDefinitionForIdentifier reqAst identifier).bind (fun d =>
      d.position.map (fun pos => ⟨reqUri, rangeFromPosition pos⟩)))

/-- `handle_link_footnote` from `src/definition.rs`. -/
def handleLinkFootnote (reqUri : Url) (identifier : String) (s : State) :
    Option (Option Location) :=
  match s.astForUri reqUri with
  | none => none
  | some reqAst =>
    some ((findFootDefinitionForIdentifier reqAst identifier).bind (fun d =>
      d.position.map (fun pos => ⟨reqUri, rangeFromPosition pos⟩)))

/-- `definition` from `src/definition.rs`: the goto-definition entry point.
The source calls `state.ast_for_uri(req_uri).unwrap()`, so a request for a
document that is not in the store panics; the panic is the outer `none`. -/
def definitionFn (reqUri : Url) (pos : LspPos) (s : State) : Option (Option Location) :=
  match s.astForUri reqUri with
  | none => none
  | some reqAst =>
    match findLinkableForPosition reqAst pos.line pos.character with
    | none => some none
    | some n =>
      match n with
      | .link u t _ sp => defHandleLinkToHeading ⟨u, t, sp⟩ s
      | .linkReference i _ _ => handleLinkRef reqUri i s
      | .footnoteReference i _ => handleLinkFootnote reqUri i s
      | _ => some none

/-! ## References (`src/references.rs`) -/

/-- `get_heading_refs` from `src/references.rs`: every link in the store that
resolves to the requested heading (compared structurally, as the derived
`PartialEq` does), paired with the uri of the document containing it. -/
def getHeadingRefs (reqHeading : Node) (s : State) : Option (List (Url × ResolvedLink)) := do
  let perFile ← s.mdFiles.mapM (fun p => do
    let resolved ← (findLinks p.2.ast).mapM (fun l => resolveLink ⟨l.1, l.2.1, l.2.2⟩ s)
    pure (resolved.filterMap (fun rl =>
      match rl with
      | .internalHeading l u h =>
        if nodeBeq reqHeading h then some (p.1, ResolvedLink.internalHeading l u h) else none
      | .externalHeading l u h =>
        if nodeBeq reqHeading h then some (p.1, ResolvedLink.externalHeading l u h) else none
      | _ => none)))
  pure perFile.flatten

/-- `handle_heading` from `src/references.rs`. -/
def handleHeading (h : Node) (s : State) : Option (List Location) :=
  (getHeadingRefs h s).map (fun refs =>
    refs.filterMap (fun p =>
      p.2.linkPosition.map (fun pos => ⟨p.1, rangeFromPosition pos⟩)))

/-- `handle_definition` from `src/references.rs`: the location of every
`LinkReference` with the definition's identifier; `None` when one of them has
no span (the `collect` over `Option`s). -/
def handleDefinition (reqAst : Node) (reqUri : Url) (identifier : String) :
    Option (List Location) :=
  (findLinkReferencesForIdentifier reqAst identifier).mapM (fun lr =>
    lr.position.map (fun pos => (⟨reqUri, rangeFromPosition pos⟩ : Location)))

/-- `handle_footnote_definition` from `src/references.rs`. -/
def handleFootnoteDefinition (reqAst : Node) (reqUri : Url) (identifier : String) :
    Option (List Location) :=
  (findFootnoteReferencesForIdentifier reqAst identifier).mapM (fun fr =>
    fr.position.map (fun pos => (⟨reqUri, rangeFromPosition pos⟩ : Location)))

/-- `references` from `src/references.rs`: the find-references entry point.
As in `definition`, the source unwraps the request document's tree, so a
missing document panics (outer `none`). -/
def referencesFn (reqUri : Url) (pos : LspPos) (s : State) :
    Option (Option (List Location)) :=
  match s.astForUri reqUri with
  | none => none
  | some reqAst =>
    match findDefinitionForPosition reqAst pos.line pos.character with
    | none => some none
    | some n =>
      match n with
      | .heading d cs sp => (handleHeading (.heading d cs sp) s).map (fun locs => some locs)
      | .definition i _ _ _ => some (handleDefinition reqAst reqUri i)
      | .footnoteDefinition i _ _ => some (handleFootnoteDefinition reqAst reqUri i)
      | _ => some none

/-! ## Rename (`src/rename.rs`) -/

/-- The edits map `HashMap<Url, Vec<TextEdit>>`, as an association list with
unique keys. -/
def EditMap := List (Url × List TextEdit)

/-- `map.entry(k).or_default().push(e)`. -/
def editMapPush : EditMap → Url → TextEdit → EditMap
  | [], k, e => [(k, [e])]
  | (k', es) :: rest, k, e =>
    if k' = k then (k', es ++ [e]) :: rest else (k', es) :: editMapPush rest k e

/-- `map.entry(k).or_insert_with(Vec::new).extend(es)`. -/
def editMapExtend : EditMap → Url → List TextEdit → EditMap
  | [], k, es => [(k, es)]
  | (k', es') :: rest, k, es =>
    if k' = k then (k', es' ++ es) :: rest else (k', es') :: editMapExtend rest k es

/-- `merge_maps` from `src/rename.rs`. -/
def mergeMaps (m₁ m₂ : EditMap) : EditMap :=
  m₂.foldl (fun acc p => editMapExtend acc p.1 p.2) m₁

/-- `get_text_child` from `src/rename.rs`: the first `Text` child, as its
value and position. -/
def getTextChild (children : List Node) : Option (String × Option Span) :=
  children.findSome? (fun c =>
    match c with
    | .text v p => some (v, p)
    | _ => none)

/-- `rename_range` from `src/rename.rs`. -/
def renameRange (startLine endLine startChar endChar : Nat) : Range :=
  ⟨⟨startLine, startChar⟩, ⟨endLine, endChar⟩⟩

/-- `heading_rename_range` from `src/rename.rs`: the span of the heading's
first text child, 0-indexed, keeping the raw end column. -/
def headingRenameRange (n : Node) : Option Range :=
  match n with
  | .heading _ cs _ =>
    (getTextChild cs).bind (fun t =>
      t.2.map (fun pos =>
        renameRange (pos.start.line - 1) (pos.endPos.line - 1)
          (pos.start.column - 1) pos.endPos.column))
  | _ => none

/-- `link_ref_rename_range` from `src/rename.rs`: the bracketed identifier
portion after the visible text. -/
def linkRefRenameRange (n : Node) : Option Range :=
  match n with
  | .linkReference _ cs sp =>
    (getTextChild cs).bind (fun t =>
      sp.map (fun pos =>
        renameRange (pos.start.line - 1) (pos.endPos.line - 1)
          (pos.start.column + t.1.length + 2) (pos.endPos.column - 2)))
  | _ => none

/-- `definition_rename_range` from `src/rename.rs`. -/
def definitionRenameRange (n : Node) : Option Range :=
  match n with
  | .definition i _ _ sp =>
    sp.map (fun pos =>
      renameRange (pos.start.line - 1) (pos.endPos.line - 1)
        pos.start.column (pos.start.column + i.length))
  | _ => none

/-- `footnote_ref_rename_range` from `src/rename.rs`. -/
def footnoteRefRenameRange (n : Node) : Option Range :=
  match n with
  | .footnoteReference i sp =>
    sp.map (fun pos =>
      renameRange (pos.start.line - 1) (pos.endPos.line - 1)
        (pos.start.column + 1) (pos.start.column + i.length + 1))
  | _ => none

/-- `footnote_def_rename_range` from `src/rename.rs` (both range lines come
from the start line, as in the source). -/
def footnoteDefRenameRange (n : Node) : Option Range :=
  match n with
  | .footnoteDefinition i _ sp =>
    sp.map (fun pos =>
      renameRange (pos.start.line - 1) (pos.start.line - 1)
        (pos.start.column + 1) (pos.start.column + i.length + 1))
  | _ => none

/-- `prepare_rename_range` from `src/rename.rs`. -/
def prepareRenameRange (n : Node) : Option Range :=
  match n with
  | .heading .. => headingRenameRange n
  | .linkReference .. => linkRefRenameRange n
  | .definition .. => definitionRenameRange n
  | .footnoteReference .. => footnoteRefRenameRange n
  | .footnoteDefinition .. => footnoteDefRenameRange n
  | _ => none

/-- The containment check of `find_renameable_for_position`
(`src/rename.rs` lines 175–207): Heading, LinkReference, Definition and
FootnoteReference use both column bounds; FootnoteDefinition omits the upper
column bound (it is commented out in the source). -/
def renameableAt (pos : LspPos) (n : Node) : Bool :=
  match n with
  | .heading _ _ (some sp) => linkableContainsSpan sp pos.line pos.character
  | .linkReference _ _ (some sp) => linkableContainsSpan sp pos.line pos.character
  | .definition _ _ _ (some sp) => linkableContainsSpan sp pos.line pos.character
  | .footnoteReference _ (some sp) => linkableContainsSpan sp pos.line pos.character
  | .footnoteDefinition _ _ (some sp) => definitionContainsSpan sp pos.line pos.character
  | _ => false

/-- `find_renameable_for_position` from `src/rename.rs` (checks the node
itself, then its children, in pre-order). -/
def findRenameableForPosition (root : Node) (pos : LspPos) : Option Node :=
  (preorder root).find? (renameableAt pos)

/-- `prepare_rename` from `src/rename.rs`: no `unwrap`, so a missing
document yields `none` ("no result"). -/
def prepareRenameFn (reqUri : Url) (pos : LspPos) (s : State) : Option Range :=
  (s.astForUri reqUri).bind (fun ast =>
    (findRenameableForPosition ast pos).bind prepareRenameRange)

/-- The per-reference text edit of `rename_heading_refs`
(`src/rename.rs` lines 250–265): the heading-text portion at the end of the
link, shifted one column left for wiki-links; the replacement text is the raw
new name. -/
def headingRefEdit (newName : String) (link : MdLinkData) (headingText : String) :
    Option TextEdit :=
  link.position.map (fun pos =>
    let startLine := pos.start.line - 1
    let startChar := pos.endPos.column - 2 - headingText.length
    let endLine := pos.endPos.line - 1
    let endChar := pos.endPos.column - 2
    let startChar := if link.title = some "wikilink" then startChar - 1 else startChar
    let endChar := if link.title = some "wikilink" then endChar - 1 else endChar
    ⟨renameRange startLine endLine startChar endChar, newName⟩)

/-- `rename_heading_refs` from `src/rename.rs`.  The source calls a
`get_heading_refs`/`FoundLink` interface that `src/references.rs` no longer
exports in that form; it is modelled through the present `get_heading_refs`
together with `ResolvedLink::heading_text` (a resolved heading matched on its
first text child, so the text is present for every reference produced). -/
def renameHeadingRefs (newName : String) (heading : Node) (s : State) : Option EditMap := do
  let refs ← getHeadingRefs heading s
  pure (refs.foldl (fun acc p =>
    match p.2 with
    | .internalHeading l _ h =>
      match getHeadingText h with
      | some ht =>
        match headingRefEdit newName l ht with
        | some e => editMapPush acc p.1 e
        | none => acc
      | none => acc
    | .externalHeading l _ h =>
      match getHeadingText h with
      | some ht =>
        match headingRefEdit newName l ht with
        | some e => editMapPush acc p.1 e
        | none => acc
      | none => acc
    | _ => acc) [])

/-- `rename_definition` from `src/rename.rs` (consulted for the identifier of
the link reference under the cursor). -/
def renameDefinition (newName : String) (reqUri : Url) (identifier : String) (s : State) :
    EditMap :=
  match s.astForUri reqUri with
  | some ast =>
    match findDefinitionForIdentifier ast identifier with
    | some d =>
      match definitionRenameRange d with
      | some r => [(reqUri, [⟨r, newName⟩])]
      | none => []
    | none => []
  | none => []

/-- `rename_link_refs` from `src/rename.rs`: one edit per link reference with
the identifier, all under the request document. -/
def renameLinkRefs (newName : String) (reqUri : Url) (identifier : String) (s : State) :
    Option EditMap :=
  match s.astForUri reqUri with
  | some ast =>
    some ((findLinkReferencesForIdentifier ast identifier).foldl (fun acc lr =>
      match linkRefRenameRange lr with
      | some r => editMapPush acc reqUri ⟨r, newName⟩
      | none => acc) [])
  | none => none

/-- `rename_footnote_def` from `src/rename.rs`. -/
def renameFootnoteDef (newName : String) (reqUri : Url) (identifier : String) (s : State) :
    EditMap :=
  match s.astForUri reqUri with
  | some ast =>
    match findFootDefinitionForIdentifier ast identifier with
    | some d =>
      match footnoteDefRenameRange d with
      | some r => [(reqUri, [⟨r, newName⟩])]
      | none => []
    | none => []
  | none => []

/-- `rename_footnote_refs` from `src/rename.rs`. -/
def renameFootnoteRefs (newName : String) (reqUri : Url) (identifier : String) (s : State) :
    Option EditMap :=
  match s.astForUri reqUri with
  | some ast =>
    some ((findFootnoteReferencesForIdentifier ast identifier).foldl (fun acc fr =>
      match footnoteRefRenameRange fr with
      | some r => editMapPush acc reqUri ⟨r, newName⟩
      | none => acc) [])
  | none => none

/-- `rename` from `src/rename.rs`: the rename entry point.  A missing
document (or no renameable node under the cursor) yields `some none`
("no result"); the outer `none` marks the `unreachable!()` panic and the
panic inherited from resolution in the heading branch. -/
def renameFn (newName : String) (reqUri : Url) (pos : LspPos) (s : State) :
    Option (Option EditMap) :=
  match (s.astForUri reqUri).bind (fun ast => findRenameableForPosition ast pos) with
  | none => some none
  | some n =>
    match n with
    | .heading d cs sp =>
      match renameHeadingRefs newName (.heading d cs sp) s with
      | none => none
      | some refChanges =>
        let withHeading :=
          match headingRenameRange (.heading d cs sp) with
          | some r => editMapPush refChanges reqUri ⟨r, newName⟩
          | none => refChanges
        some (some withHeading)
    | .linkReference i _ _ =>
      let defChanges := renameDefinition newName reqUri i s
      match renameLinkRefs newName reqUri i s with
      | none => some none
      | some linkRefChanges => some (some (mergeMaps defChanges linkRefChanges))
    | .definition i u t sp =>
      match renameLinkRefs newName reqUri i s with
      | none => some none
      | some linkRefChanges =>
        let withDef :=
          match definitionRenameRange (.definition i u t sp) with
          | some r => editMapPush linkRefChanges reqUri ⟨r, newName⟩
          | none => linkRefChanges
        some (some withDef)
    | .footnoteReference i sp =>
      let fdefChanges := renameFootnoteDef newName reqUri i s
      match renameFootnoteRefs newName reqUri i s with
      | none => some none
      | some frefChanges => some (some (mergeMaps fdefChanges frefChanges))
    | .footnoteDefinition i cs sp =>
      match renameFootnoteRefs newName reqUri i s with
      | none => some none
      | some frefChanges =>
        let withDef :=
          match footnoteDefRenameRange (.footnoteDefinition i cs sp) with
          | some r => editMapPush frefChanges reqUri ⟨r, newName⟩
          | none => frefChanges
        some (some withDef)
    | _ => none

/-! ## Diagnostics (`src/diagnostics.rs`) -/

/-- `BrokenLinkKind` from `src/diagnostics.rs` (the source spells the first
variant `IvalidSyntax`). -/
inductive BrokenLinkKind where
  | invalidSyntax
  | headingNotFound
  | externalHeadingNotFound
  | fileNotFound
  | linkRefNotFound
  | footnoteRefNotFound
  deriving DecidableEq, Repr

/-- `BrokenLink` from `src/diagnostics.rs`. -/
structure BrokenLink where
  kind : BrokenLinkKind
  range : Range
  message : String
  deriving DecidableEq, Repr

/-- `itertools::unique`: keep the first occurrence of each element,
deduplicating by equality. -/
def rustUniqueAux [DecidableEq α] (seen : List α) : List α → List α
  | [] => []
  | x :: rest =>
    if x ∈ seen then rustUniqueAux seen rest else x :: rustUniqueAux (x :: seen) rest

/-- `v.into_iter().unique().collect()`. -/
def rustUnique [DecidableEq α] (l : List α) : List α :=
  rustUniqueAux [] l

/-- `Path::file_name` on the modelled path strings: the last `/`-separated
component, absent when the path ends in a separator. -/
def lastPathSegment (u : Url) : Option String :=
  match ((splitOnCharList '/' u.data).map (fun l => (⟨l⟩ : String))).getLast? with
  | some "" => none
  | some seg => some seg
  | none => none

/-- A regular-expression match: start offset, end offset and matched text. -/
structure RegexMatch where
  mstart : Nat
  mend : Nat
  mtext : String
  deriving Repr

/-- `captures_iter`: scan left to right, resuming after each match; the fuel
(the line length) never runs out because every match consumes at least one
character. -/
def scanAllAux (tryMatch : List Char → Option (Nat × String)) :
    Nat → List Char → Nat → List RegexMatch
  | 0, _, _ => []
  | _ + 1, [], _ => []
  | fuel + 1, c :: rest, idx =>
    match tryMatch (c :: rest) with
    | some (len, txt) =>
      ⟨idx, idx + len, txt⟩ :: scanAllAux tryMatch fuel ((c :: rest).drop len) (idx + len)
    | none => scanAllAux tryMatch fuel rest (idx + 1)

/-- All matches of a matcher in a line. -/
def scanAll (tryMatch : List Char → Option (Nat × String)) (l : List Char) :
    List RegexMatch :=
  scanAllAux tryMatch (l.length + 1) l 0

/-- Match of `\[([^]]+)\]\[([^]]+)\]` at the start of the input (the
greedy-plus-literal pattern needs no backtracking), returning the length and
text of the whole match. -/
def tryMatchLinkRef : List Char → Option (Nat × String)
  | '[' :: rest =>
    let r₁ := rest.takeWhile (fun c => c ≠ ']')
    if r₁.isEmpty then none
    else
      match rest.drop r₁.length with
      | ']' :: '[' :: rest₂ =>
        let r₂ := rest₂.takeWhile (fun c => c ≠ ']')
        if r₂.isEmpty then none
        else
          match rest₂.drop r₂.length with
          | ']' :: _ =>
            some (1 + r₁.length + 2 + r₂.length + 1,
              ⟨'[' :: r₁ ++ ']' :: '[' :: r₂ ++ [']']⟩)
          | _ => none
      | _ => none
  | _ => none

/-- Match of `\[[^\]]+]\(([^)]+)\)` at the start of the input. -/
def tryMatchInvalidLink : List Char → Option (Nat × String)
  | '[' :: rest =>
    let r₁ := rest.takeWhile (fun c => c ≠ ']')
    if r₁.isEmpty then none
    else
      match rest.drop r₁.length with
      | ']' :: '(' :: rest₂ =>
        let r₂ := rest₂.takeWhile (fun c => c ≠ ')')
        if r₂.isEmpty then none
        else
          match rest₂.drop r₂.length with
          | ')' :: _ =>
            some (1 + r₁.length + 2 + r₂.length + 1,
              ⟨'[' :: r₁ ++ ']' :: '(' :: r₂ ++ [')']⟩)
          | _ => none
      | _ => none
  | _ => none

/-- Index of the last occurrence of a character in a list. -/
def lastIndexOf (c : Char) : List Char → Option Nat
  | [] => none
  | x :: rest =>
    match lastIndexOf c rest with
    | some i => some (i + 1)
    | none => if x = c then some 0 else none

/-- Match of `\[(\^\S+)\]` at the start of the input: a greedy `\S+` run
followed by backtracking to a literal `]` makes the match end at the last
`]` inside the non-whitespace run, with a nonempty group before it. -/
def tryMatchFootnoteRef : List Char → Option (Nat × String)
  | '[' :: '^' :: rest =>
    let r := rest.takeWhile (fun c => !c.isWhitespace)
    match lastIndexOf ']' r with
    | some k => if 1 ≤ k then some (2 + k + 1, ⟨'[' :: '^' :: r.take k ++ [']']⟩) else none
    | none => none
  | _ => none

/-- `BrokenLinkRef` from `src/diagnostics.rs`. -/
structure BrokenLinkRef where
  range : Range
  text : String
  deriving Repr

/-- The per-`Text` scan of `find_broken_link_ref`: each line of the value is
scanned with the matcher and every match becomes a 0-indexed range relative
to the text's span, as in `src/diagnostics.rs` lines 210–236. -/
def brokenLinkRefMatchesOfText (matcher : List Char → Option (Nat × String))
    (v : String) (pos : Span) : List BrokenLinkRef :=
  (rustLines v).enum.flatMap (fun p =>
    (scanAll matcher p.2.data).map (fun m =>
      ⟨⟨⟨pos.start.line + p.1 - 1, pos.start.column + m.mstart - 1⟩,
        ⟨pos.start.line + p.1 - 1, pos.start.column + m.mend - 1⟩⟩, m.mtext⟩))

mutual
/-- `find_broken_link_ref` from `src/diagnostics.rs`: children first, then
the node's own `Text` value scanned line by line (a text without a span is
skipped, as by the source's `if let`). -/
def findBrokenLinkRefNode (matcher : List Char → Option (Nat × String)) (n : Node) :
    List BrokenLinkRef :=
  match n with
  | .text v (some pos) => brokenLinkRefMatchesOfText matcher v pos
  | .heading _ cs _ => findBrokenLinkRefList matcher cs
  | .link _ _ cs _ => findBrokenLinkRefList matcher cs
  | .linkReference _ cs _ => findBrokenLinkRefList matcher cs
  | .footnoteDefinition _ cs _ => findBrokenLinkRefList matcher cs
  | .container cs _ => findBrokenLinkRefList matcher cs
  | _ => []

/-- `find_broken_link_ref` over a list of siblings. -/
def findBrokenLinkRefList (matcher : List Char → Option (Nat × String)) (cs : List Node) :
    List BrokenLinkRef :=
  match cs with
  | [] => []
  | c :: rest => findBrokenLinkRefNode matcher c ++ findBrokenLinkRefList matcher rest
end

/-- `handle_broken_heading_link` from `src/diagnostics.rs`. -/
def handleBrokenHeadingLink (link : MdLinkData) (reqUri : Url) (s : State) :
    Option BrokenLink :=
  match link.position, (s.astForUri reqUri).bind (fun ast => findHeadingForLink link.url ast) with
  | some pos, none =>
    some ⟨.headingNotFound, rangeFromPosition pos,
      "Link to non-existent heading `" ++ link.url ++ "`"⟩
  | _, _ => none

/-- `handle_broken_link` from `src/diagnostics.rs`; the outer `none` is the
panic inherited from `resolve_link` (the `to_file_path` unwrap is total in
the path-string model of `Url`). -/
def handleBrokenLink (s : State) (link : MdLinkData) : Option (List BrokenLink) :=
  (resolveLink link s).map (fun r =>
    match r with
    | .file _ fileUri =>
      match link.position with
      | some pos =>
        if strContainsChar link.url '#' then
          match lastPathSegment fileUri with
          | some f =>
            [⟨.externalHeadingNotFound, rangeFromPosition pos,
              "Link to non-existent heading `" ++ link.url ++ "` in file `" ++ f ++ "`"⟩]
          | none => []
        else []
      | none => []
    | .unresolved =>
      match link.position with
      | some pos =>
        [⟨.fileNotFound, rangeFromPosition pos,
          "Link to non-existent file `" ++ link.url ++ "`"⟩]
      | none => []
    | _ => [])

/-- `handle_broken_ref` from `src/diagnostics.rs`; `none` is the `unwrap` on
the request document's tree. -/
def handleBrokenRef (reqUri : Url) (s : State) : Option (List BrokenLink) :=
  match s.astForUri reqUri with
  | none => none
  | some ast =>
    some ((findBrokenLinkRefNode tryMatchLinkRef ast).map (fun blr =>
      ⟨.linkRefNotFound, blr.range,
        "Link reference to non-existent link definition `" ++ blr.text ++ "`"⟩))

/-- `handle_broken_footnote_ref` from `src/diagnostics.rs`. -/
def handleBrokenFootnoteRef (reqUri : Url) (s : State) : Option (List BrokenLink) :=
  match s.astForUri reqUri with
  | none => none
  | some ast =>
    some ((findBrokenLinkRefNode tryMatchFootnoteRef ast).map (fun blr =>
      ⟨.footnoteRefNotFound, blr.range,
        "Footnote reference to non-existent footnote definition `" ++ blr.text ++ "`"⟩))

/-- `handle_invalid_link` from `src/diagnostics.rs`. -/
def handleInvalidLink (reqUri : Url) (s : State) : Option (List BrokenLink) :=
  match s.astForUri reqUri with
  | none => none
  | some ast =>
    some ((findBrokenLinkRefNode tryMatchInvalidLink ast).map (fun blr =>
      ⟨.invalidSyntax, blr.range, "Invalid Link `" ++ blr.text ++ "`"⟩))

mutual
/-- `check_links` from `src/diagnostics.rs`: walk the children, dispatch
links and suspicious text, recurse into other containers, and deduplicate
with `unique`. -/
def checkLinks (ast : Node) (reqUri : Url) (s : State) : Option (List BrokenLink) :=
  match ast with
  | .heading _ cs _ => (checkLinksChildren cs reqUri s).map rustUnique
  | .link _ _ cs _ => (checkLinksChildren cs reqUri s).map rustUnique
  | .linkReference _ cs _ => (checkLinksChildren cs reqUri s).map rustUnique
  | .footnoteDefinition _ cs _ => (checkLinksChildren cs reqUri s).map rustUnique
  | .container cs _ => (checkLinksChildren cs reqUri s).map rustUnique
  | _ => some []

/-- The child-dispatch loop of `check_links`. -/
def checkLinksChildren (cs : List Node) (reqUri : Url) (s : State) :
    Option (List BrokenLink) :=
  match cs with
  | [] => some []
  | c :: rest =>
    (match c with
      | .link u t _ p =>
        if strStartsWith u "#" then
          pure (match handleBrokenHeadingLink ⟨u, t, p⟩ reqUri s with
            | some b => [b]
            | none => [])
        else handleBrokenLink s ⟨u, t, p⟩
      | .text v _ =>
        (if hasSubstr v "](" then handleInvalidLink reqUri s else pure []).bind (fun a =>
          (if hasSubstr v "][" then handleBrokenRef reqUri s else pure []).bind (fun b =>
            (if hasSubstr v "[^" then handleBrokenFootnoteRef reqUri s else pure []).map
              (fun c₂ => a ++ b ++ c₂)))
      | other => checkLinks other reqUri s).bind (fun here =>
      (checkLinksChildren rest reqUri s).bind (fun there =>
        pure (here ++ there)))
end

/-! ## Concrete instances used by the theorems -/

/-- A store with no documents. -/
def emptyState : State := ⟨[], none⟩

/-- A heading whose first text child is the literal `"My Heading"`. -/
def exampleHeading : Node :=
  .heading 1 [.text "My Heading" (some ⟨⟨1, 3, 2⟩, ⟨1, 13, 12⟩⟩)] (some ⟨⟨1, 1, 0⟩, ⟨1, 13, 12⟩⟩)

/-- A store holding one document that contains `exampleHeading`. -/
def exampleHeadingState : State :=
  ⟨[("/ws/doc.md", ⟨"# My Heading", .container [exampleHeading] none⟩)], some ⟨"/ws", "ws"⟩⟩

/-- A store holding only the document `/ws/other.md`. -/
def otherFileState : State :=
  ⟨[("/ws/other.md", ⟨"", .container [] none⟩)], some ⟨"/ws", "ws"⟩⟩

/-- A document containing a single link to a file not present in any store. -/
def brokenLinkDoc : Node :=
  .container [.link "missing" none [] (some ⟨⟨1, 1, 0⟩, ⟨1, 10, 9⟩⟩)] none

/-- A store holding `brokenLinkDoc` as its only document. -/
def brokenLinkState : State :=
  ⟨[("/ws/doc.md", ⟨"[t](missing)", brokenLinkDoc⟩)], some ⟨"/ws", "ws"⟩⟩

/-- A document with one link definition and two link references to it. -/
def renameExampleDoc : Node :=
  .container
    [.definition "google-link" "https://google.com" none (some ⟨⟨5, 1, 40⟩, ⟨5, 34, 73⟩⟩),
     .linkReference "google-link" [.text "google" (some ⟨⟨1, 2, 1⟩, ⟨1, 8, 7⟩⟩)]
       (some ⟨⟨1, 1, 0⟩, ⟨1, 22, 21⟩⟩),
     .linkReference "google-link" [.text "also google" (some ⟨⟨2, 2, 23⟩, ⟨2, 13, 34⟩⟩)]
       (some ⟨⟨2, 1, 22⟩, ⟨2, 27, 48⟩⟩)]
    none

/-- A store holding `renameExampleDoc` as its only document. -/
def renameExampleState : State :=
  ⟨[("/ws/doc.md", ⟨"", renameExampleDoc⟩)], some ⟨"/ws", "ws"⟩⟩

/-! ## Statement helpers for the diagnostics claims -/

/-- The fixed message prefix each diagnostic kind produces (the format
strings of `src/diagnostics.rs`). -/
def kindTag : BrokenLinkKind → String
  | .invalidSyntax => "Invalid Link `"
  | .headingNotFound => "Link to non-existent heading `"
  | .externalHeadingNotFound => "Link to non-existent heading `"
  | .fileNotFound => "Link to non-existent file `"
  | .linkRefNotFound => "Link reference to non-existent link definition `"
  | .footnoteRefNotFound => "Footnote reference to non-existent footnote definition `"

/-- Shape invariant of every finding `check_links` emits: the message starts
with the kind's tag, a same-document heading finding continues with `#`
(its link url starts with `#`) and a cross-document heading finding does not
(its link url does not start with `#`).  Together these make the message
determine the kind, so deduplication by whole finding and by
(range, message) agree on the reachable outputs. -/
def msgOk (b : BrokenLink) : Prop :=
  ∃ r : List Char, b.message.data = (kindTag b.kind).data ++ r ∧
    (b.kind = .headingNotFound → r.head? = some '#') ∧
    (b.kind = .externalHeadingNotFound → r.head? ≠ some '#')

/-- Whether two lists differ at some common position (used to separate the
message tags of distinct diagnostic kinds). -/
def divergeAt : List Char → List Char → Bool
  | a :: as, b :: bs => a ≠ b || divergeAt as bs
  | _, _ => false

/-! # Theorems

One theorem (plus counterexample and witness where applicable) per claim,
preceded by the shared helper lemmas. -/

/-! ## Shared lemmas about the resolver -/

/-- A successful `findSome?` exhibits a witness in the list. -/
theorem exists_of_findSome?_eq_some {α β : Type} {f : α → Option β} :
    ∀ {l : List α} {b : β}, l.findSome? f = some b → ∃ a ∈ l, f a = some b := by
  intro l
  induction l with
  | nil => intro b h; simp [List.findSome?] at h
  | cons x rest ih =>
    intro b h
    cases hfx : f x with
    | some y =>
      have h' : some y = some b := by rw [List.findSome?_cons, hfx] at h; exact h
      exact ⟨x, by simp, by rw [hfx]; exact h'⟩
    | none =>
      have h' : List.findSome? f rest = some b := by rw [List.findSome?_cons, hfx] at h; exact h
      obtain ⟨a, ha, hfa⟩ := ih h'
      exact ⟨a, by simp [ha], hfa⟩

/-- Every document of `get_file_list` is in the store, so its tree lookup
succeeds — the justification for the `unwrap` inside `resolve_link`. -/
theorem astForUri_isSome_of_mem_getFileList {s : State} {u : Url} {rel : String}
    (h : (u, rel) ∈ s.getFileList) : ∃ ast, s.astForUri u = some ast := by
  simp only [State.getFileList, List.mem_filterMap] at h
  obtain ⟨q, hq, hbind⟩ := h
  cases hwsf : s.workspaceFolder with
  | none => rw [hwsf] at hbind; simp at hbind
  | some wsf =>
    rw [hwsf] at hbind
    simp only [Option.bind_eq_bind, Option.some_bind] at hbind
    obtain ⟨r, _, hp⟩ := Option.map_eq_some'.mp hbind
    have hp1 : u = q.1 := by
      have := congrArg Prod.fst hp
      simpa using this.symm
    have hsome : (s.mdFiles.find? (fun x => x.1 = u)).isSome := by
      rw [List.find?_isSome]
      exact ⟨q, hq, by simp [hp1]⟩
    obtain ⟨x, hx⟩ := Option.isSome_iff_exists.mp hsome
    exact ⟨x.2.ast, by simp [State.astForUri, hx]⟩

/-- The no-`#` file search always returns a value. -/
theorem resolveFileSearch_total (link : MdLinkData) (s : State) (file : String) :
    ∃ r, resolveFileSearch link s file = some r := by
  unfold resolveFileSearch
  split <;> exact ⟨_, rfl⟩

/-- The no-`#` file search is `Unresolved` exactly when no stored document
has the searched relative path. -/
theorem resolveFileSearch_unresolved_iff (link : MdLinkData) (s : State) (file : String) :
    resolveFileSearch link s file = some .unresolved ↔ ∀ p ∈ s.getFileList, p.2 ≠ file := by
  unfold resolveFileSearch
  split
  · next url rel heq =>
    have hmem := List.mem_of_find?_eq_some heq
    have hfile : rel = file := by simpa using List.find?_some heq
    constructor
    · intro hcontr; simp at hcontr
    · intro hall; exact absurd hfile (hall _ hmem)
  · next heq =>
    rw [List.find?_eq_none] at heq
    constructor
    · intro _ p hp; simpa using heq p hp
    · intro _; rfl

/-- The file-plus-heading search never panics: the unwrapped tree lookup is
for a url obtained from `get_file_list`, which is always in the store. -/
theorem resolveFileHeadingSearch_total (link : MdLinkData) (s : State) (file frag : String) :
    ∃ r, resolveFileHeadingSearch link s file frag = some r := by
  unfold resolveFileHeadingSearch
  split
  · next url rel heq =>
    have hmem := List.mem_of_find?_eq_some heq
    obtain ⟨ast, hast⟩ := astForUri_isSome_of_mem_getFileList hmem
    simp only [hast]
    split <;> exact ⟨_, rfl⟩
  · exact ⟨_, rfl⟩

/-- The file-plus-heading search is `Unresolved` exactly when no stored
document has the searched relative path (a found file with a missing
fragment falls back to `File`, never to `Unresolved`). -/
theorem resolveFileHeadingSearch_unresolved_iff (link : MdLinkData) (s : State)
    (file frag : String) :
    resolveFileHeadingSearch link s file frag = some .unresolved ↔
      ∀ p ∈ s.getFileList, p.2 ≠ file := by
  unfold resolveFileHeadingSearch
  split
  · next url rel heq =>
    have hmem := List.mem_of_find?_eq_some heq
    have hfile : rel = file := by simpa using List.find?_some heq
    obtain ⟨ast, hast⟩ := astForUri_isSome_of_mem_getFileList hmem
    simp only [hast]
    split
    all_goals
      constructor
      · intro hcontr; exact absurd hcontr (by simp)
      · intro hall; exact absurd hfile (hall _ hmem)
  · next heq =>
    rw [List.find?_eq_none] at heq
    constructor
    · intro _ p hp; simpa using heq p hp
    · intro _; rfl

/-! ## C4 — linkable containment at the span start -/

/-- C4 counterexample: the claim says a position exactly at `span.start`
(0-indexed) is always contained by the linkable containment predicate, but
for a multi-line span whose end column is smaller than its start column —
here start (1,5), end (2,2) — the upper column bound `character + 1 ≤
span.end.column` already fails at the start position (0,4), and a Link node
with that span is not found at its own start. -/
theorem linkable_containment_counterexample :
    linkableContainsSpan ⟨⟨1, 5, 4⟩, ⟨2, 2, 20⟩⟩ 0 4 = false ∧
    findLinkableForPosition (Node.link "file.md" none [] (some ⟨⟨1, 5, 4⟩, ⟨2, 2, 20⟩⟩)) 0 4 =
      none :=
  ⟨rfl, rfl⟩

/-- C4 amended: for a well-formed 1-indexed span whose start column does not
exceed its end column (in particular every single-line span), the 0-indexed
position at `span.start` is contained by the linkable containment predicate
and a Link node with that span is found at it; and a 0-indexed position at
line `span.end.line` (1-indexed `span.end.line + 1`) or later is never
contained. -/
theorem linkable_containment_amended :
    (∀ sp : Span, 1 ≤ sp.start.line → sp.start.line ≤ sp.endPos.line →
      1 ≤ sp.start.column → sp.start.column ≤ sp.endPos.column →
      linkableContainsSpan sp (sp.start.line - 1) (sp.start.column - 1) = true) ∧
    (∀ (sp : Span) (line character : Nat), sp.endPos.line ≤ line →
      linkableContainsSpan sp line character = false) ∧
    (∀ (u : String) (t : Option String) (cs : List Node) (sp : Span),
      1 ≤ sp.start.line → sp.start.line ≤ sp.endPos.line →
      1 ≤ sp.start.column → sp.start.column ≤ sp.endPos.column →
      findLinkableForPosition (Node.link u t cs (some sp))
        (sp.start.line - 1) (sp.start.column - 1) = some (Node.link u t cs (some sp))) := by
  have hstart : ∀ sp : Span, 1 ≤ sp.start.line → sp.start.line ≤ sp.endPos.line →
      1 ≤ sp.start.column → sp.start.column ≤ sp.endPos.column →
      linkableContainsSpan sp (sp.start.line - 1) (sp.start.column - 1) = true := by
    intro sp h₁ h₂ h₃ h₄
    simp only [linkableContainsSpan, Bool.and_eq_true, decide_eq_true_eq]
    omega
  refine ⟨hstart, ?_, ?_⟩
  · intro sp line character h
    simp only [linkableContainsSpan]
    have : ¬ (line + 1 ≤ sp.endPos.line) := by omega
    simp [this]
  · intro u t cs sp h₁ h₂ h₃ h₄
    have hc : isLinkableAt (sp.start.line - 1) (sp.start.column - 1)
        (Node.link u t cs (some sp)) = true := by
      simpa [isLinkableAt] using hstart sp h₁ h₂ h₃ h₄
    simp only [findLinkableForPosition, preorder]
    rw [List.find?_cons_of_pos _ hc]

/-- C4 amended, witness at a concrete single-line span. -/
theorem linkable_containment_amended_witness :
    linkableContainsSpan ⟨⟨1, 5, 4⟩, ⟨1, 9, 8⟩⟩ 0 4 = true ∧
    linkableContainsSpan ⟨⟨1, 5, 4⟩, ⟨1, 9, 8⟩⟩ 1 0 = false :=
  ⟨linkable_containment_amended.1 ⟨⟨1, 5, 4⟩, ⟨1, 9, 8⟩⟩
      (by decide) (by decide) (by decide) (by decide),
    linkable_containment_amended.2.1 ⟨⟨1, 5, 4⟩, ⟨1, 9, 8⟩⟩ 1 0 (by decide)⟩

/-! ## C5 — definition-target containment has no upper column bound -/

/-- C5: the definition-target containment predicate holds exactly when the
1-indexed line lies within the span's lines and the 1-indexed column is at
least the start column — no upper column bound; in particular, a position
whose column is past the span's end column on a line within the span is
still contained. -/
theorem definition_containment_no_upper_column_bound :
    ∀ (sp : Span) (line character : Nat),
      (definitionContainsSpan sp line character = true ↔
        (sp.start.line ≤ line + 1 ∧ line + 1 ≤ sp.endPos.line ∧
          sp.start.column ≤ character + 1)) ∧
      (sp.start.line ≤ line + 1 → line + 1 ≤ sp.endPos.line →
        sp.start.column ≤ character + 1 → sp.endPos.column < character + 1 →
        definitionContainsSpan sp line character = true) := by
  intro sp line character
  constructor
  · simp [definitionContainsSpan, and_assoc]
  · intro h₁ h₂ h₃ _
    simp only [definitionContainsSpan, Bool.and_eq_true, decide_eq_true_eq]
    omega

/-- C5 witness: the position (0, 99), far past the end column 5 of the span,
is still contained. -/
theorem definition_containment_no_upper_column_bound_witness :
    definitionContainsSpan ⟨⟨1, 1, 0⟩, ⟨1, 5, 4⟩⟩ 0 99 = true :=
  (definition_containment_no_upper_column_bound ⟨⟨1, 1, 0⟩, ⟨1, 5, 4⟩⟩ 0 99).2
    (by decide) (by decide) (by decide) (by decide)

/-! ## C6 — heading slug round trip -/

/-- C6: the slug of `"My Heading"` is `"my-heading"`; a link `#my-heading`
resolves to the heading as an `InternalHeading` through the slug branch (the
exact comparison fails but the slugs agree), and a link `#My Heading`
resolves through the exact-match branch (the target with `#` removed equals
the heading text verbatim). -/
theorem heading_slug_round_trip :
    slugify "My Heading" = "my-heading" ∧
    (removeChar '#' "#my-heading" ≠ "My Heading" ∧
      slugify "My Heading" = slugify (removeChar '#' "#my-heading")) ∧
    removeChar '#' "#My Heading" = "My Heading" ∧
    resolveLink ⟨"#my-heading", none, none⟩ exampleHeadingState =
      some (.internalHeading ⟨"#my-heading", none, none⟩ "/ws/doc.md" exampleHeading) ∧
    resolveLink ⟨"#My Heading", none, none⟩ exampleHeadingState =
      some (.internalHeading ⟨"#My Heading", none, none⟩ "/ws/doc.md" exampleHeading) :=
  ⟨rfl, ⟨by decide, rfl⟩, rfl, rfl, rfl⟩

/-! ## C7 — wiki-link synthesis -/

/-- C7: on the text `"See [[target]] here"` spanning line 1, the wiki-link
pre-pass appends exactly one synthesized Link as a sibling after the
unchanged Text node, with url `"target"`, title `"wikilink"`, and a span on
the same line whose 1-indexed start column 5 is the position of the opening
bracket. -/
theorem wiki_link_synthesis :
    parseWikiLinks
        (Node.container [Node.text "See [[target]] here" (some ⟨⟨1, 1, 0⟩, ⟨1, 20, 19⟩⟩)] none) =
      some (Node.container
        [Node.text "See [[target]] here" (some ⟨⟨1, 1, 0⟩, ⟨1, 20, 19⟩⟩),
         Node.link "target" (some "wikilink")
           [Node.text "" (some ⟨⟨1, 7, 7⟩, ⟨1, 7, 7⟩⟩)]
           (some ⟨⟨1, 5, 5⟩, ⟨1, 15, 15⟩⟩)] none) :=
  rfl

/-! ## C2 — queries on a document missing from the store -/

/-- C2 counterexample: the claim says goto-definition, references and rename
all report "no result" for a document identifier missing from the store, but
`definition` and `references` call `unwrap` on the missing tree and panic
(the panic is modelled by the outer `none`; "no result" would be
`some none`). -/
theorem missing_document_counterexample :
    emptyState.astForUri "/ws/absent.md" = none ∧
    definitionFn "/ws/absent.md" ⟨0, 0⟩ emptyState = none ∧
    referencesFn "/ws/absent.md" ⟨0, 0⟩ emptyState = none :=
  ⟨rfl, rfl, rfl⟩

/-- C2 amended: for a document identifier missing from the store,
`prepare_rename` and `rename` short-circuit and return "no result", while
`definition` and `references` unwrap the missing tree and panic. -/
theorem missing_document_amended :
    ∀ (uri : Url) (pos : LspPos) (newName : String) (s : State),
      s.astForUri uri = none →
      prepareRenameFn uri pos s = none ∧
      renameFn newName uri pos s = some none ∧
      definitionFn uri pos s = none ∧
      referencesFn uri pos s = none := by
  intro uri pos newName s h
  refine ⟨?_, ?_, ?_, ?_⟩
  · simp [prepareRenameFn, h]
  · simp [renameFn, h]
  · simp [definitionFn, h]
  · simp [referencesFn, h]

/-- C2 amended, witness on the empty store. -/
theorem missing_document_amended_witness :
    prepareRenameFn "/ws/absent.md" ⟨0, 0⟩ emptyState = none ∧
    renameFn "newName" "/ws/absent.md" ⟨0, 0⟩ emptyState = some none ∧
    definitionFn "/ws/absent.md" ⟨0, 0⟩ emptyState = none ∧
    referencesFn "/ws/absent.md" ⟨0, 0⟩ emptyState = none :=
  missing_document_amended "/ws/absent.md" ⟨0, 0⟩ "newName" emptyState rfl

/-! ## C1 — resolution totality -/

/-- C1: for every link and store, resolution terminates with exactly one
`ResolvedLink` value — in particular the internal `unwrap` never panics —
and the result is `Unresolved` exactly when no other branch matched: the url
is not an http url, and (following the split on the first `#`) no document
contains a matching heading, respectively no document has the normalized
relative path. -/
theorem resolve_link_totality :
    ∀ (link : MdLinkData) (s : State),
      (∃ r, resolveLink link s = some r) ∧
      (resolveLink link s = some .unresolved ↔
        (strStartsWith link.url "http" = false ∧
          match splitOnceChar '#' link.url with
          | some (f, _) =>
            if f = "" then
              ∀ p ∈ s.mdFiles, findHeadingForLink link.url p.2.ast = none
            else
              ∀ p ∈ s.getFileList,
                p.2 ≠ (if mdLinkIsWiki link.title then
                         (if strEndsWith f ".md" then f else f ++ ".md")
                       else urlDecode f)
          | none =>
            ∀ p ∈ s.getFileList,
              p.2 ≠ (if strEndsWith link.url ".md" then link.url else link.url ++ ".md"))) := by
  intro link s
  simp only [resolveLink]
  cases hhttp : strStartsWith link.url "http" with
  | true =>
    simp only [hhttp, if_true]
    constructor
    · exact ⟨_, rfl⟩
    · simp
  | false =>
    simp only [hhttp, Bool.false_eq_true, if_false, eq_self_iff_true, true_and]
    cases hsplit : splitOnceChar '#' link.url with
    | none =>
      simp only [hsplit]
      constructor
      · exact resolveFileSearch_total link s _
      · simpa using resolveFileSearch_unresolved_iff link s _
    | some pr =>
      obtain ⟨f, frag⟩ := pr
      simp only [hsplit]
      by_cases hf : f = ""
      · simp only [hf, if_true]
        constructor
        · split <;> exact ⟨_, rfl⟩
        · cases hfind : s.mdFiles.findSome? (fun p =>
              (findHeadingForLink link.url p.2.ast).map (fun h => (p.1, h))) with
          | some ur =>
            obtain ⟨url, h⟩ := ur
            simp only [hfind]
            obtain ⟨a, ha, hfa⟩ := exists_of_findSome?_eq_some hfind
            obtain ⟨hh, hhh, _⟩ := Option.map_eq_some'.mp hfa
            constructor
            · intro hcontr; exact absurd hcontr (by simp)
            · intro hall; exact absurd hhh (by simp [hall a ha])
          | none =>
            simp only [hfind]
            rw [List.findSome?_eq_none_iff] at hfind
            constructor
            · intro _ p hp; simpa using hfind p hp
            · intro _; trivial
      · simp only [hf, if_false]
        constructor
        · exact resolveFileHeadingSearch_total link s _ _
        · simpa using resolveFileHeadingSearch_unresolved_iff link s _ _

/-! ## C3 — file-part normalization in the file-plus-heading case -/

/-- C3 counterexample: the claim says the `.md` extension is appended to the
file part of a file-plus-heading target for standard links as well as for
wiki-links.  With the store holding `/ws/other.md`, the wiki-link
`/other#h` resolves (its file part is normalized to `/other.md`), but the
standard link with the same target stays `Unresolved`: its file part is only
percent-decoded, no extension is appended. -/
theorem file_heading_normalization_counterexample :
    otherFileState.getFileList = [("/ws/other.md", "/other.md")] ∧
    resolveLink ⟨"/other#h", none, none⟩ otherFileState = some .unresolved ∧
    resolveLink ⟨"/other#h", some "wikilink", none⟩ otherFileState =
      some (.file ⟨"/other#h", some "wikilink", none⟩ "/ws/other.md") :=
  ⟨rfl, rfl, rfl⟩

/-- C3 amended: in the file-plus-heading case, a wiki-link's file part is
normalized exactly as in the no-`#` case (append `.md` unless already
present), but a standard link's file part is only percent-decoded with no
extension appended; the store is then searched for a document whose
workspace-relative path equals the resulting file part, and the link is
`Unresolved` exactly when none has it. -/
theorem file_heading_normalization_amended :
    ∀ (link : MdLinkData) (s : State) (f frag : String),
      strStartsWith link.url "http" = false →
      splitOnceChar '#' link.url = some (f, frag) →
      f ≠ "" →
      resolveLink link s =
        resolveFileHeadingSearch link s
          (if mdLinkIsWiki link.title then
            (if strEndsWith f ".md" then f else f ++ ".md")
           else urlDecode f) frag ∧
      (resolveLink link s = some .unresolved ↔
        ∀ p ∈ s.getFileList,
          p.2 ≠ (if mdLinkIsWiki link.title then
                   (if strEndsWith f ".md" then f else f ++ ".md")
                 else urlDecode f)) := by
  intro link s f frag hhttp hsplit hf
  have h1 : resolveLink link s =
      resolveFileHeadingSearch link s
        (if mdLinkIsWiki link.title then
          (if strEndsWith f ".md" then f else f ++ ".md")
         else urlDecode f) frag := by
    simp only [resolveLink, hhttp, Bool.false_eq_true, if_false, hsplit, hf, ite_false]
  exact ⟨h1, h1 ▸ resolveFileHeadingSearch_unresolved_iff link s _ frag⟩

/-- C3 amended, witness at the wiki-link of the counterexample store. -/
theorem file_heading_normalization_amended_witness :
    resolveLink ⟨"/other#h", some "wikilink", none⟩ otherFileState =
      resolveFileHeadingSearch ⟨"/other#h", some "wikilink", none⟩ otherFileState
        (if mdLinkIsWiki (some "wikilink") then
          (if strEndsWith "/other" ".md" then "/other" else "/other" ++ ".md")
         else urlDecode "/other") "h" ∧
    (resolveLink ⟨"/other#h", some "wikilink", none⟩ otherFileState = some .unresolved ↔
      ∀ p ∈ otherFileState.getFileList,
        p.2 ≠ (if mdLinkIsWiki (some "wikilink") then
                 (if strEndsWith "/other" ".md" then "/other" else "/other" ++ ".md")
               else urlDecode "/other")) :=
  file_heading_normalization_amended ⟨"/other#h", some "wikilink", none⟩ otherFileState
    "/other" "h" rfl rfl (by decide)

/-! ## C8 — rename on a Definition produces N + 1 edits -/
/-- Pushing onto a single-key edit map appends to its list. -/
theorem editMapPush_single (u : Url) (es : List TextEdit) (e : TextEdit) :
    editMapPush [(u, es)] u e = [(u, es ++ [e])] := by
  simp [editMapPush]

/-- Folding the link-reference edits over a single-key map keeps the single
key and appends one edit per reference with a range. -/
theorem fold_push_from_single (newName : String) (u : Url) :
    ∀ (refs : List Node) (es : List TextEdit),
      (∀ lr ∈ refs, (linkRefRenameRange lr).isSome) →
      ∃ es', refs.foldl (fun acc lr =>
          match linkRefRenameRange lr with
          | some r => editMapPush acc u ⟨r, newName⟩
          | none => acc) [(u, es)] = [(u, es ++ es')] ∧ es'.length = refs.length := by
  intro refs
  induction refs with
  | nil => intro es _; exact ⟨[], by simp, rfl⟩
  | cons lr rest ih =>
    intro es hall
    obtain ⟨r, hr⟩ := Option.isSome_iff_exists.mp (hall lr (by simp))
    obtain ⟨es', hfold, hlen⟩ := ih (es ++ [⟨r, newName⟩]) (fun x hx => hall x (by simp [hx]))
    refine ⟨⟨r, newName⟩ :: es', ?_, by simp [hlen]⟩
    rw [List.foldl_cons]
    simp only [hr]
    rw [editMapPush_single, hfold]
    simp

/-- `rename_link_refs` produces a map that is empty (no references) or holds
exactly one edit per reference under the request document. -/
theorem renameLinkRefs_shape (newName : String) (u : Url) (s : State) (ast : Node)
    (ident : String) (hast : s.astForUri u = some ast)
    (hall : ∀ lr ∈ findLinkReferencesForIdentifier ast ident, (linkRefRenameRange lr).isSome) :
    ∃ m, renameLinkRefs newName u ident s = some m ∧
      ((findLinkReferencesForIdentifier ast ident = [] ∧ m = []) ∨
        ∃ es, m = [(u, es)] ∧ es.length = (findLinkReferencesForIdentifier ast ident).length) := by
  unfold renameLinkRefs
  simp only [hast]
  cases href : findLinkReferencesForIdentifier ast ident with
  | nil => exact ⟨[], by simp [href], Or.inl ⟨rfl, rfl⟩⟩
  | cons lr rest =>
    rw [href] at hall
    obtain ⟨r, hr⟩ := Option.isSome_iff_exists.mp (hall lr (by simp))
    obtain ⟨es', hfold, hlen⟩ :=
      fold_push_from_single newName u rest [⟨r, newName⟩] (fun x hx => hall x (by simp [hx]))
    refine ⟨[(u, ⟨r, newName⟩ :: es')], ?_, Or.inr ⟨⟨r, newName⟩ :: es', rfl, by simp [href, hlen]⟩⟩
    rw [List.foldl_cons]
    simp only [hr]
    show some (List.foldl _ (editMapPush [] u ⟨r, newName⟩) rest) = _
    have hinit : editMapPush [] u (⟨r, newName⟩ : TextEdit) = [(u, [⟨r, newName⟩])] := rfl
    rw [hinit]
    exact congrArg some (hfold.trans (by simp))

/-- C8: renaming a Definition (found under the cursor) whose identifier is
referenced by N LinkReferences in the same document returns a mapping with
the single key of that document holding exactly N + 1 text edits — one per
reference plus one for the definition itself. -/
theorem rename_definition_edit_count :
    ∀ (newName : String) (reqUri : Url) (pos : LspPos) (s : State) (ast : Node)
      (ident defUrl : String) (defTitle : Option String) (dpos : Span),
      s.astForUri reqUri = some ast →
      findRenameableForPosition ast pos = some (.definition ident defUrl defTitle (some dpos)) →
      (∀ lr ∈ findLinkReferencesForIdentifier ast ident, (linkRefRenameRange lr).isSome) →
      ∃ edits : List TextEdit,
        renameFn newName reqUri pos s = some (some [(reqUri, edits)]) ∧
        edits.length = (findLinkReferencesForIdentifier ast ident).length + 1 := by
  intro newName reqUri pos s ast ident defUrl defTitle dpos hast hfind hall
  obtain ⟨m, hm, hcase⟩ := renameLinkRefs_shape newName reqUri s ast ident hast hall
  unfold renameFn
  simp only [hast, Option.some_bind, hfind, hm]
  rcases hcase with ⟨hrefs, rfl⟩ | ⟨es, rfl, hlen⟩
  · refine ⟨[⟨renameRange (dpos.start.line - 1) (dpos.endPos.line - 1)
        dpos.start.column (dpos.start.column + ident.length), newName⟩], ?_, by simp [hrefs]⟩
    rfl
  · refine ⟨es ++ [⟨renameRange (dpos.start.line - 1) (dpos.endPos.line - 1)
        dpos.start.column (dpos.start.column + ident.length), newName⟩], ?_, by simp [hlen]⟩
    show some (some (editMapPush [(reqUri, es)] reqUri _)) = _
    rw [editMapPush_single]



/-- C8 witness: two references plus the definition give three edits. -/
theorem rename_definition_edit_count_witness :
    ∃ edits : List TextEdit,
      renameFn "nn" "/ws/doc.md" ⟨4, 0⟩ renameExampleState = some (some [("/ws/doc.md", edits)]) ∧
      edits.length = (findLinkReferencesForIdentifier renameExampleDoc "google-link").length + 1 :=
  rename_definition_edit_count "nn" "/ws/doc.md" ⟨4, 0⟩ renameExampleState renameExampleDoc
    "google-link" "https://google.com" none ⟨⟨5, 1, 40⟩, ⟨5, 34, 73⟩⟩ rfl rfl (by decide)

/-! ## C10 — wiki-link classification by the literal title -/

/-- C10: a link is classified as a wiki-link exactly when its title is
`Some("wikilink")`; every synthesized wiki link carries that title; any link
with that title — however it was produced — is resolved with the wiki-link
extension-appending rule; and the heading-rename edit for such a link
substitutes the raw new name, at the wiki-shifted column range. -/
theorem wikilink_classification :
    (∀ title : Option String, mdLinkIsWiki title = true ↔ title = some "wikilink") ∧
    (∀ (e : ExtractedWikiLink) (startLine : Nat),
      ∃ cs p, e.linkNode startLine = Node.link e.content (some "wikilink") cs p) ∧
    (∀ (link : MdLinkData) (s : State) (f frag : String),
      link.title = some "wikilink" →
      strStartsWith link.url "http" = false →
      splitOnceChar '#' link.url = some (f, frag) → f ≠ "" →
      resolveLink link s =
        resolveFileHeadingSearch link s
          (if strEndsWith f ".md" then f else f ++ ".md") frag) ∧
    (∀ (newName : String) (link : MdLinkData) (ht : String) (e : TextEdit),
      link.title = some "wikilink" → headingRefEdit newName link ht = some e →
      e.newText = newName ∧
      ∀ pos, link.position = some pos →
        e.range = ⟨⟨pos.start.line - 1, pos.endPos.column - 2 - ht.length - 1⟩,
                   ⟨pos.endPos.line - 1, pos.endPos.column - 2 - 1⟩⟩) := by
  refine ⟨?_, ?_, ?_, ?_⟩
  · intro title
    cases title with
    | none => simp [mdLinkIsWiki]
    | some t => simp [mdLinkIsWiki]
  · intro e sl
    exact ⟨_, _, rfl⟩
  · intro link s f frag htitle hhttp hsplit hf
    have hw : mdLinkIsWiki link.title = true := by simp [mdLinkIsWiki, htitle]
    simp only [resolveLink, hhttp, Bool.false_eq_true, if_false, hsplit, hf, ite_false, hw,
      if_true]
  · intro name link ht e htitle he
    cases hpos : link.position with
    | none => rw [headingRefEdit, hpos] at he; simp at he
    | some pos =>
      rw [headingRefEdit, hpos] at he
      simp only [Option.map_some', Option.some.injEq, htitle, if_pos] at he
      subst he
      refine ⟨rfl, ?_⟩
      intro pos' hpos'
      injection hpos' with hpos2
      subst hpos2
      rfl

/-- C10 witness: the literal title classifies as wiki and the wiki
extension rule applies on the counterexample store. -/
theorem wikilink_classification_witness :
    mdLinkIsWiki (some "wikilink") = true ∧
    resolveLink ⟨"/other#h", some "wikilink", none⟩ otherFileState =
      resolveFileHeadingSearch ⟨"/other#h", some "wikilink", none⟩ otherFileState
        (if strEndsWith "/other" ".md" then "/other" else "/other" ++ ".md") "h" :=
  ⟨(wikilink_classification.1 (some "wikilink")).mpr rfl,
    wikilink_classification.2.2.1 ⟨"/other#h", some "wikilink", none⟩ otherFileState
      "/other" "h" rfl rfl rfl (by decide)⟩

end MdLsp

namespace MdLsp

theorem rustUniqueAux_spec {α : Type} [DecidableEq α] :
    ∀ (l seen : List α), (rustUniqueAux seen l).Nodup ∧ ∀ x ∈ rustUniqueAux seen l, x ∉ seen := by
  intro l
  induction l with
  | nil => intro seen; simp [rustUniqueAux]
  | cons x rest ih =>
    intro seen
    by_cases hx : x ∈ seen
    · simpa [rustUniqueAux, hx] using ih seen
    · obtain ⟨hnodup, hnotin⟩ := ih (x :: seen)
      refine ⟨?_, ?_⟩
      · simp only [rustUniqueAux, hx, if_false, List.nodup_cons]
        exact ⟨fun hmem => (hnotin x hmem) (by simp), hnodup⟩
      · intro y hy hyseen
        simp only [rustUniqueAux, hx, if_false, List.mem_cons] at hy
        rcases hy with rfl | hy
        · exact hx hyseen
        · exact hnotin y hy (by simp [hyseen])

theorem rustUnique_nodup {α : Type} [DecidableEq α] (l : List α) : (rustUnique l).Nodup :=
  (rustUniqueAux_spec l []).1

theorem mem_of_mem_rustUniqueAux {α : Type} [DecidableEq α] :
    ∀ (l seen : List α) (x : α), x ∈ rustUniqueAux seen l → x ∈ l := by
  intro l
  induction l with
  | nil => intro seen x h; simp [rustUniqueAux] at h
  | cons y rest ih =>
    intro seen x h
    by_cases hy : y ∈ seen
    · simp only [rustUniqueAux, hy, if_true] at h
      exact List.mem_cons_of_mem _ (ih _ _ h)
    · simp only [rustUniqueAux, hy, if_false, List.mem_cons] at h
      rcases h with rfl | h
      · simp
      · exact List.mem_cons_of_mem _ (ih _ _ h)

theorem mem_of_mem_rustUnique {α : Type} [DecidableEq α] {l : List α} {x : α}
    (h : x ∈ rustUnique l) : x ∈ l :=
  mem_of_mem_rustUniqueAux l [] x h

theorem append_ne_of_divergeAt :
    ∀ {a b : List Char}, divergeAt a b = true → ∀ (x y : List Char), a ++ x ≠ b ++ y := by
  intro a
  induction a with
  | nil => intro b h; simp [divergeAt] at h
  | cons c as ih =>
    intro b h x y
    cases b with
    | nil => simp [divergeAt] at h
    | cons d bs =>
      simp only [divergeAt, Bool.or_eq_true, decide_eq_true_eq] at h
      intro heq
      simp only [List.cons_append, List.cons.injEq] at heq
      obtain ⟨hcd, htail⟩ := heq
      rcases h with hne | hdiv
      · exact hne hcd
      · exact ih hdiv x y htail

theorem kind_eq_aux :
    ∀ (k k' : BrokenLinkKind) (r r' : List Char),
      (kindTag k).data ++ r = (kindTag k').data ++ r' →
      (k = .headingNotFound → r.head? = some '#') →
      (k = .externalHeadingNotFound → r.head? ≠ some '#') →
      (k' = .headingNotFound → r'.head? = some '#') →
      (k' = .externalHeadingNotFound → r'.head? ≠ some '#') →
      k = k' := by
  intro k k' r r' hdata hh he hh' he'
  cases k <;> cases k' <;> try rfl
  all_goals try (exact absurd hdata (append_ne_of_divergeAt (by decide) r r'))
  · exfalso
    have hr : r = r' := List.append_cancel_left hdata
    exact (he' rfl) (hr ▸ hh rfl)
  · exfalso
    have hr : r = r' := List.append_cancel_left hdata
    exact (he rfl) (hr ▸ hh' rfl)

theorem kind_eq_of_msgOk {b b' : BrokenLink} (h1 : msgOk b) (h2 : msgOk b')
    (hmsg : b.message = b'.message) : b.kind = b'.kind := by
  obtain ⟨r, hr, hh, he⟩ := h1
  obtain ⟨r', hr', hh', he'⟩ := h2
  exact kind_eq_aux b.kind b'.kind r r' (by rw [← hr, ← hr', hmsg]) hh he hh' he'

end MdLsp

namespace MdLsp

theorem head_of_hash_prefix {u : String} (h : strStartsWith u "#" = true) (x : String) :
    ((u ++ x).data).head? = some '#' := by
  unfold strStartsWith at h
  cases hu : u.data with
  | nil => rw [hu] at h; simp [List.isPrefixOf] at h
  | cons c cs =>
    rw [hu] at h
    have hc : c = '#' := by
      simp only [show ("#" : String).data = ['#'] from rfl, List.isPrefixOf,
        Bool.and_eq_true, beq_iff_eq] at h
      exact h.1.symm
    rw [String.data_append, hu, hc]
    rfl

theorem head_ne_of_no_hash_prefix {u : String} (h : strStartsWith u "#" = false) {x : String}
    (hx : x.data.head? ≠ some '#') : ((u ++ x).data).head? ≠ some '#' := by
  unfold strStartsWith at h
  cases hu : u.data with
  | nil =>
    rw [String.data_append, hu]
    simpa using hx
  | cons c cs =>
    rw [hu] at h
    have hc : ¬ (c = '#') := by
      simp only [show ("#" : String).data = ['#'] from rfl, List.isPrefixOf,
        Bool.and_eq_true, beq_iff_eq, List.isPrefixOf_nil_left, and_true] at h
      intro hcc
      rw [hcc] at h
      simp at h
    rw [String.data_append, hu]
    simp only [List.cons_append, List.head?_cons, ne_eq, Option.some.injEq]
    intro hcc
    exact hc hcc

end MdLsp

namespace MdLsp

theorem msgOk_handleBrokenHeadingLink {link : MdLinkData} {uri : Url} {s : State}
    {b : BrokenLink} (hguard : strStartsWith link.url "#" = true)
    (h : handleBrokenHeadingLink link uri s = some b) : msgOk b := by
  unfold handleBrokenHeadingLink at h
  split at h
  · injection h with h
    subst h
    refine ⟨(link.url ++ "`").data, ?_, fun _ => head_of_hash_prefix hguard "`", ?_⟩
    · simp [kindTag]
    · intro hk; simp at hk
  · exact absurd h (by simp)

theorem msgOk_handleBrokenLink {s : State} {link : MdLinkData} {out : List BrokenLink}
    (hguard : strStartsWith link.url "#" = false)
    (h : handleBrokenLink s link = some out) : ∀ b ∈ out, msgOk b := by
  unfold handleBrokenLink at h
  obtain ⟨r, hr, hF⟩ := Option.map_eq_some'.mp h
  subst hF
  intro b hb
  split at hb
  · -- file case
    split at hb
    · -- position some
      split at hb
      · -- contains '#'
        split at hb
        · -- file name some f
          rename_i f hf
          simp only [List.mem_singleton] at hb
          subst hb
          refine ⟨(link.url ++ ("` in file `" ++ (f ++ "`"))).data, ?_, ?_, ?_⟩
          · simp [kindTag]
          · intro hk; simp at hk
          · intro _
            refine head_ne_of_no_hash_prefix hguard ?_
            simp
        · simp at hb
      · simp at hb
    · simp at hb
  · -- unresolved case
    split at hb
    · simp only [List.mem_singleton] at hb
      subst hb
      refine ⟨(link.url ++ "`").data, ?_, ?_, ?_⟩
      · simp [kindTag]
      · intro hk; simp at hk
      · intro hk; simp at hk
    · simp at hb
  · simp at hb

theorem msgOk_handleBrokenRef {uri : Url} {s : State} {out : List BrokenLink}
    (h : handleBrokenRef uri s = some out) : ∀ b ∈ out, msgOk b := by
  unfold handleBrokenRef at h
  split at h
  · exact absurd h (by simp)
  · injection h with h
    subst h
    intro b hb
    simp only [List.mem_map] at hb
    obtain ⟨blr, _, hb⟩ := hb
    subst hb
    refine ⟨(blr.text ++ "`").data, ?_, ?_, ?_⟩
    · simp [kindTag]
    · intro hk; simp at hk
    · intro hk; simp at hk

theorem msgOk_handleBrokenFootnoteRef {uri : Url} {s : State} {out : List BrokenLink}
    (h : handleBrokenFootnoteRef uri s = some out) : ∀ b ∈ out, msgOk b := by
  unfold handleBrokenFootnoteRef at h
  split at h
  · exact absurd h (by simp)
  · injection h with h
    subst h
    intro b hb
    simp only [List.mem_map] at hb
    obtain ⟨blr, _, hb⟩ := hb
    subst hb
    refine ⟨(blr.text ++ "`").data, ?_, ?_, ?_⟩
    · simp [kindTag]
    · intro hk; simp at hk
    · intro hk; simp at hk

theorem msgOk_handleInvalidLink {uri : Url} {s : State} {out : List BrokenLink}
    (h : handleInvalidLink uri s = some out) : ∀ b ∈ out, msgOk b := by
  unfold handleInvalidLink at h
  split at h
  · exact absurd h (by simp)
  · injection h with h
    subst h
    intro b hb
    simp only [List.mem_map] at hb
    obtain ⟨blr, _, hb⟩ := hb
    subst hb
    refine ⟨(blr.text ++ "`").data, ?_, ?_, ?_⟩
    · simp [kindTag]
    · intro hk; simp at hk
    · intro hk; simp at hk

end MdLsp

namespace MdLsp

theorem msgOk_linkChild {u : String} {t : Option String} {p : Option Span} {uri : Url}
    {s : State} {here : List BrokenLink}
    (h : (if strStartsWith u "#" = true then
            pure (match handleBrokenHeadingLink ⟨u, t, p⟩ uri s with
              | some b => [b]
              | none => [])
          else handleBrokenLink s ⟨u, t, p⟩) = some here) :
    ∀ b ∈ here, msgOk b := by
  by_cases hguard : strStartsWith u "#" = true
  · rw [if_pos hguard] at h
    have h' := Option.some.inj h
    intro b hb
    rw [← h'] at hb
    cases hbhl : handleBrokenHeadingLink ⟨u, t, p⟩ uri s with
    | some b0 =>
      rw [hbhl] at hb
      simp only [List.mem_singleton] at hb
      subst hb
      exact msgOk_handleBrokenHeadingLink hguard hbhl
    | none => rw [hbhl] at hb; simp at hb
  · rw [if_neg hguard] at h
    simp only [Bool.not_eq_true] at hguard
    exact msgOk_handleBrokenLink hguard h

theorem msgOk_textChild {v : String} {uri : Url} {s : State} {here : List BrokenLink}
    (h : ((if hasSubstr v "](" then handleInvalidLink uri s else pure []).bind (fun a =>
        (if hasSubstr v "][" then handleBrokenRef uri s else pure []).bind (fun b =>
          (if hasSubstr v "[^" then handleBrokenFootnoteRef uri s else pure []).map
            (fun c₂ => a ++ b ++ c₂)))) = some here) :
    ∀ b ∈ here, msgOk b := by
  obtain ⟨a, ha, h⟩ := Option.bind_eq_some.mp h
  obtain ⟨bb, hbb, h⟩ := Option.bind_eq_some.mp h
  obtain ⟨cc, hcc, h⟩ := Option.map_eq_some'.mp h
  subst h
  have hA : ∀ x ∈ a, msgOk x := by
    split at ha
    · exact msgOk_handleInvalidLink ha
    · injection ha with ha; subst ha; simp
  have hB : ∀ x ∈ bb, msgOk x := by
    split at hbb
    · exact msgOk_handleBrokenRef hbb
    · injection hbb with hbb; subst hbb; simp
  have hC : ∀ x ∈ cc, msgOk x := by
    split at hcc
    · exact msgOk_handleBrokenFootnoteRef hcc
    · injection hcc with hcc; subst hcc; simp
  intro b hb
  rcases List.mem_append.mp hb with hb' | hb'
  · rcases List.mem_append.mp hb' with hb'' | hb''
    · exact hA b hb''
    · exact hB b hb''
  · exact hC b hb'

theorem checkLinks_msgOk_aux :
    ∀ (n : Nat) (ast : Node) (uri : Url) (s : State) (out : List BrokenLink),
      sizeOf ast ≤ n → checkLinks ast uri s = some out → ∀ b ∈ out, msgOk b := by
  intro n
  induction n with
  | zero =>
    intro ast uri s out hsz
    exact absurd hsz (by cases ast <;> simp_arith)
  | succ n ih =>
    intro ast uri s out hsz hout
    have hchild : ∀ (cs : List Node) (uri : Url) (s : State) (out' : List BrokenLink),
        sizeOf cs ≤ n + 1 →
        checkLinksChildren cs uri s = some out' → ∀ b ∈ out', msgOk b := by
      intro cs
      induction cs with
      | nil =>
        intro uri s out' _ hout' b hb
        simp only [checkLinksChildren] at hout'
        injection hout' with hout'
        subst hout'
        simp at hb
      | cons c rest ihc =>
        intro uri s out' hsz' hout'
        have hszc : sizeOf c ≤ n := by
          simp only [List.cons.sizeOf_spec] at hsz'; omega
        have hszr : sizeOf rest ≤ n + 1 := by
          simp only [List.cons.sizeOf_spec] at hsz'; omega
        cases c with
        | link u t cls p =>
          simp only [checkLinksChildren] at hout'
          obtain ⟨here, hhere, h2⟩ := Option.bind_eq_some.mp hout'
          obtain ⟨there, hthere, h3⟩ := Option.bind_eq_some.mp h2
          injection h3 with h3
          subst h3
          intro b hb
          rcases List.mem_append.mp hb with hmem | hmem
          · exact msgOk_linkChild hhere b hmem
          · exact ihc uri s there hszr hthere b hmem
        | text v p =>
          simp only [checkLinksChildren] at hout'
          obtain ⟨here, hhere, h2⟩ := Option.bind_eq_some.mp hout'
          obtain ⟨there, hthere, h3⟩ := Option.bind_eq_some.mp h2
          injection h3 with h3
          subst h3
          intro b hb
          rcases List.mem_append.mp hb with hmem | hmem
          · exact msgOk_textChild hhere b hmem
          · exact ihc uri s there hszr hthere b hmem
        | heading d cls p =>
          simp only [checkLinksChildren] at hout'
          obtain ⟨here, hhere, h2⟩ := Option.bind_eq_some.mp hout'
          obtain ⟨there, hthere, h3⟩ := Option.bind_eq_some.mp h2
          injection h3 with h3
          subst h3
          intro b hb
          rcases List.mem_append.mp hb with hmem | hmem
          · exact ih _ uri s here hszc hhere b hmem
          · exact ihc uri s there hszr hthere b hmem
        | linkReference i cls p =>
          simp only [checkLinksChildren] at hout'
          obtain ⟨here, hhere, h2⟩ := Option.bind_eq_some.mp hout'
          obtain ⟨there, hthere, h3⟩ := Option.bind_eq_some.mp h2
          injection h3 with h3
          subst h3
          intro b hb
          rcases List.mem_append.mp hb with hmem | hmem
          · exact ih _ uri s here hszc hhere b hmem
          · exact ihc uri s there hszr hthere b hmem
        | definition i du dt p =>
          simp only [checkLinksChildren] at hout'
          obtain ⟨here, hhere, h2⟩ := Option.bind_eq_some.mp hout'
          obtain ⟨there, hthere, h3⟩ := Option.bind_eq_some.mp h2
          injection h3 with h3
          subst h3
          intro b hb
          rcases List.mem_append.mp hb with hmem | hmem
          · exact ih _ uri s here hszc hhere b hmem
          · exact ihc uri s there hszr hthere b hmem
        | footnoteReference i p =>
          simp only [checkLinksChildren] at hout'
          obtain ⟨here, hhere, h2⟩ := Option.bind_eq_some.mp hout'
          obtain ⟨there, hthere, h3⟩ := Option.bind_eq_some.mp h2
          injection h3 with h3
          subst h3
          intro b hb
          rcases List.mem_append.mp hb with hmem | hmem
          · exact ih _ uri s here hszc hhere b hmem
          · exact ihc uri s there hszr hthere b hmem
        | footnoteDefinition i cls p =>
          simp only [checkLinksChildren] at hout'
          obtain ⟨here, hhere, h2⟩ := Option.bind_eq_some.mp hout'
          obtain ⟨there, hthere, h3⟩ := Option.bind_eq_some.mp h2
          injection h3 with h3
          subst h3
          intro b hb
          rcases List.mem_append.mp hb with hmem | hmem
          · exact ih _ uri s here hszc hhere b hmem
          · exact ihc uri s there hszr hthere b hmem
        | html v p =>
          simp only [checkLinksChildren] at hout'
          obtain ⟨here, hhere, h2⟩ := Option.bind_eq_some.mp hout'
          obtain ⟨there, hthere, h3⟩ := Option.bind_eq_some.mp h2
          injection h3 with h3
          subst h3
          intro b hb
          rcases List.mem_append.mp hb with hmem | hmem
          · exact ih _ uri s here hszc hhere b hmem
          · exact ihc uri s there hszr hthere b hmem
        | container cls p =>
          simp only [checkLinksChildren] at hout'
          obtain ⟨here, hhere, h2⟩ := Option.bind_eq_some.mp hout'
          obtain ⟨there, hthere, h3⟩ := Option.bind_eq_some.mp h2
          injection h3 with h3
          subst h3
          intro b hb
          rcases List.mem_append.mp hb with hmem | hmem
          · exact ih _ uri s here hszc hhere b hmem
          · exact ihc uri s there hszr hthere b hmem
    cases ast with
    | heading d cs p =>
      simp only [checkLinks] at hout
      obtain ⟨v, hv, hmap⟩ := Option.map_eq_some'.mp hout
      subst hmap
      intro b hb
      exact hchild cs uri s v (by simp_arith at hsz; omega) hv b (mem_of_mem_rustUnique hb)
    | link u t cs p =>
      simp only [checkLinks] at hout
      obtain ⟨v, hv, hmap⟩ := Option.map_eq_some'.mp hout
      subst hmap
      intro b hb
      exact hchild cs uri s v (by simp_arith at hsz; omega) hv b (mem_of_mem_rustUnique hb)
    | linkReference i cs p =>
      simp only [checkLinks] at hout
      obtain ⟨v, hv, hmap⟩ := Option.map_eq_some'.mp hout
      subst hmap
      intro b hb
      exact hchild cs uri s v (by simp_arith at hsz; omega) hv b (mem_of_mem_rustUnique hb)
    | footnoteDefinition i cs p =>
      simp only [checkLinks] at hout
      obtain ⟨v, hv, hmap⟩ := Option.map_eq_some'.mp hout
      subst hmap
      intro b hb
      exact hchild cs uri s v (by simp_arith at hsz; omega) hv b (mem_of_mem_rustUnique hb)
    | container cs p =>
      simp only [checkLinks] at hout
      obtain ⟨v, hv, hmap⟩ := Option.map_eq_some'.mp hout
      subst hmap
      intro b hb
      exact hchild cs uri s v (by simp_arith at hsz; omega) hv b (mem_of_mem_rustUnique hb)
    | text v p =>
      simp only [checkLinks] at hout
      injection hout with hout
      subst hout
      intro b hb
      simp at hb
    | definition i du dt p =>
      simp only [checkLinks] at hout
      injection hout with hout
      subst hout
      intro b hb
      simp at hb
    | footnoteReference i p =>
      simp only [checkLinks] at hout
      injection hout with hout
      subst hout
      intro b hb
      simp at hb
    | html v p =>
      simp only [checkLinks] at hout
      injection hout with hout
      subst hout
      intro b hb
      simp at hb

end MdLsp

namespace MdLsp

theorem checkLinks_msgOk {ast : Node} {uri : Url} {s : State} {out : List BrokenLink}
    (h : checkLinks ast uri s = some out) : ∀ b ∈ out, msgOk b :=
  checkLinks_msgOk_aux (sizeOf ast) ast uri s out (Nat.le_refl _) h

theorem checkLinks_nodup {ast : Node} {uri : Url} {s : State} {out : List BrokenLink}
    (h : checkLinks ast uri s = some out) : out.Nodup := by
  cases ast with
  | heading d cs p =>
    simp only [checkLinks] at h
    obtain ⟨v, _, hmap⟩ := Option.map_eq_some'.mp h
    rw [← hmap]; exact rustUnique_nodup v
  | link u t cs p =>
    simp only [checkLinks] at h
    obtain ⟨v, _, hmap⟩ := Option.map_eq_some'.mp h
    rw [← hmap]; exact rustUnique_nodup v
  | linkReference i cs p =>
    simp only [checkLinks] at h
    obtain ⟨v, _, hmap⟩ := Option.map_eq_some'.mp h
    rw [← hmap]; exact rustUnique_nodup v
  | footnoteDefinition i cs p =>
    simp only [checkLinks] at h
    obtain ⟨v, _, hmap⟩ := Option.map_eq_some'.mp h
    rw [← hmap]; exact rustUnique_nodup v
  | container cs p =>
    simp only [checkLinks] at h
    obtain ⟨v, _, hmap⟩ := Option.map_eq_some'.mp h
    rw [← hmap]; exact rustUnique_nodup v
  | text v p =>
    simp only [checkLinks] at h
    injection h with h; rw [← h]; exact List.nodup_nil
  | definition i du dt p =>
    simp only [checkLinks] at h
    injection h with h; rw [← h]; exact List.nodup_nil
  | footnoteReference i p =>
    simp only [checkLinks] at h
    injection h with h; rw [← h]; exact List.nodup_nil
  | html v p =>
    simp only [checkLinks] at h
    injection h with h; rw [← h]; exact List.nodup_nil

theorem brokenLink_ext {a b : BrokenLink} (hk : a.kind = b.kind)
    (hr : a.range = b.range) (hm : a.message = b.message) : a = b := by
  cases a with | mk ka ra ma =>
  cases b with | mk kb rb mb =>
  have hk' : ka = kb := hk
  have hr' : ra = rb := hr
  have hm' : ma = mb := hm
  rw [hk', hr', hm']

/-- C9: diagnostics are deterministic and deduplicated.  `check_links` is a
pure function of the tree, the requested document and the store, so a second
run on unmodified inputs returns the same findings; every output list is
pairwise distinct in the final (range, message) pair (the dedup-by-whole-value
`unique()` pass coincides with dedup by (range, message) because the message
determines the kind); and on a document whose only link targets a file absent
from the store, the output is exactly one FileNotFound finding at the link's
own span. -/
theorem diagnostics_deterministic_dedup :
    (∀ (ast : Node) (uri : Url) (s : State),
        checkLinks ast uri s = checkLinks ast uri s)
    ∧ (∀ (ast : Node) (uri : Url) (s : State) (out : List BrokenLink),
        checkLinks ast uri s = some out →
        out.Pairwise (fun a b => ¬(a.range = b.range ∧ a.message = b.message)))
    ∧ checkLinks brokenLinkDoc "/ws/doc.md" brokenLinkState =
        some [⟨.fileNotFound, rangeFromPosition ⟨⟨1, 1, 0⟩, ⟨1, 10, 9⟩⟩,
               "Link to non-existent file `missing`"⟩] := by
  refine ⟨fun _ _ _ => rfl, ?_, ?_⟩
  · intro ast uri s out hout
    have hnd := checkLinks_nodup hout
    have hok := checkLinks_msgOk hout
    refine List.Pairwise.imp_of_mem ?_ hnd
    intro a b ha hb hne hcontra
    obtain ⟨hr, hm⟩ := hcontra
    exact hne (brokenLink_ext (kind_eq_of_msgOk (hok a ha) (hok b hb) hm) hr hm)
  · rfl

end MdLsp
